import Mathlib

/-!
FLASH shell (src/FLASH.c): a shallow embedding

The C functions of `src/FLASH.c` are transcribed as Lean functions that keep
the source's names.

* A C string is the list of its characters before the terminating NUL; a
  character stands for the byte of its code.
* A NULL-terminated `char**` array is the list of its entries before the
  first NULL; `parsed[k]` is `NULL` exactly when `k` is the length of the list.
* Global and by-reference state is passed explicitly.
* A loop that need not terminate takes a fuel argument; running out of fuel is
  the outcome `Run.outOfFuel`.
* Undefined behaviour (a NULL pointer handed to a string function, a negative
  length handed to `strncpy`, a read or write behind the end of an array) is
  the outcome `Run.fault`; a call of `exit` is the outcome `Run.exits`.
* The node of the hash table holds its two arrays `name[17]` and `value[241]`
  one behind the other: a name of 17 characters or more runs over into
  `value`, where the copy of the value then overwrites it; a copy that runs
  behind `value` is a fault.
* The token arrays `parsedArgs[100]` and `parsedArgsPiped[100]` belong to
  `execCommandSeq`: their capacity is checked there, where they are declared,
  not in `parseSpace` and `processString`, whose text has no capacity.
* What the operating system answers (`fork`, `pipe`, `waitpid`, `chdir`,
  `open`) is an input: `World` for the shell process, `FileSys` for a child.
  `malloc` is assumed to succeed.
-/

namespace FLASH

/-- A C string: its characters up to, and without, the terminating NUL. -/
abbrev CStr := List Char

/-! ## Outcomes -/

/-- The undefined behaviour a run can reach. -/
inductive Fault
  /-- A NULL pointer is read as a string (`strncmp`, `strcmp`, `strcpy`). -/
  | nullDeref
  /-- A `strncpy` is asked to copy `-1` characters. -/
  | negativeLength
  /-- An array is read behind its last element. -/
  | outOfBounds
  /-- An array is written behind its last element. -/
  | bufferOverflow
deriving DecidableEq

/-- The outcome of running a function of the shell. -/
inductive Run (α : Type) where
  /-- The function returns. -/
  | ok (a : α)
  /-- The function reaches undefined behaviour. -/
  | fault (f : Fault)
  /-- The function calls `exit(code)`. -/
  | exits (code : Nat)
  /-- The loop was still running when the fuel ran out. -/
  | outOfFuel
deriving DecidableEq

/-- Continue a run with what it returned. -/
def Run.andThen {α β : Type} : Run α → (α → Run β) → Run β
  | .ok a, k => k a
  | .fault f, _ => .fault f
  | .exits c, _ => .exits c
  | .outOfFuel, _ => .outOfFuel

/-! ## Variable store -/

/-- The constant `HASH_TABLE_SIZE`, defined as 20. -/
def HASH_TABLE_SIZE : Nat := 20

/-- The constant `MAX_ENV_VAR_LEN`, defined as 17: the size of `name` in a node. -/
def MAX_ENV_VAR_LEN : Nat := 17

/-- The constant `MAX_ENV_VAL_LEN`, defined as 241: the size of `value` in a node. -/
def MAX_ENV_VAL_LEN : Nat := 241

/-- The constant `MAXLIST`, defined as 100: the size of the token arrays. -/
def MAXLIST : Nat := 100

/-- The `struct HashNode` without its `next` pointer: a chain is a list of nodes. -/
structure HashNode where
  name : CStr
  value : CStr
deriving DecidableEq

/-- The array `HashNode* hashTable[HASH_TABLE_SIZE]`: the chain of every bucket, head first. -/
abbrev HashTable := Fin HASH_TABLE_SIZE → List HashNode

/-- The zero-initialised global table: every bucket is NULL. -/
def emptyTable : HashTable := fun _ => []

/-- The value `*name` adds to the 32-bit `unsigned int` hash: the byte of the
character, and for a byte above 127 that byte minus 256 modulo 2 ^ 32, as the
`char` of the source is signed where the shell is built (x86-64 Linux). -/
def charValue (c : Char) : Nat :=
  if c.toNat % 256 < 128 then c.toNat % 256 else 2 ^ 32 - 256 + c.toNat % 256

/-- The loop of `hashFunction` on a 32-bit `unsigned int`:
`hash = (hash << 5) + *name++`. -/
def hashLoop : Nat → CStr → Nat
  | hash, [] => hash
  | hash, c :: name => hashLoop (((hash <<< 5) % 2 ^ 32 + charValue c) % 2 ^ 32) name

/-- Function `hashFunction`: `return hash % HASH_TABLE_SIZE`. -/
def hashFunction (name : CStr) : Fin HASH_TABLE_SIZE :=
  ⟨hashLoop 0 name % HASH_TABLE_SIZE, Nat.mod_lt _ (by decide)⟩

/-- The tail of `insertIntoHashTable`: an empty bucket receives the new node,
otherwise the chain is walked to its last node and the new node linked there. -/
def appendAtEnd (newNode : HashNode) : List HashNode → List HashNode
  | [] => [newNode]
  | temp :: next => temp :: appendAtEnd newNode next

/-- The string read back from `newNode->name` after `strcpy(newNode->name, name)`
and `strcpy(newNode->value, value)`: a name of fewer than 17 characters as it
is; of a longer name the first 17 characters fill `name`, the rest and the NUL
land in `value`, which stands right behind `name` in the node and is then
overwritten by the copy of the value, so that the name reads on into the value. -/
def storedName (name value : CStr) : CStr :=
  if name.length < MAX_ENV_VAR_LEN then name else name.take MAX_ENV_VAR_LEN ++ value

/-- The end of `insertIntoHashTable`, from `newNode->next = NULL` on: the new
node is linked into the bucket `index`. -/
def linkNode (t : HashTable) (index : Fin HASH_TABLE_SIZE) (newNode : HashNode) : HashTable :=
  Function.update t index (appendAtEnd newNode (t index))

/-- Function `insertIntoHashTable(name, value)`. The copy of the name, with its
NUL, must end inside the arrays `name` and `value` of the node, and the copy of
the value inside `value`: a longer copy writes behind `value`. -/
def insertIntoHashTable (t : HashTable) (name value : CStr) : Run HashTable :=
  let index := hashFunction name
  if MAX_ENV_VAR_LEN + MAX_ENV_VAL_LEN ≤ name.length then .fault .bufferOverflow
  else if MAX_ENV_VAL_LEN ≤ value.length then .fault .bufferOverflow
  else .ok (linkNode t index ⟨storedName name value, value⟩)

/-- The `while (temp != NULL)` loop of `searchInHashTable`. -/
def searchChain (name : CStr) : List HashNode → Option CStr
  | [] => none
  | temp :: next => if temp.name = name then some temp.value else searchChain name next

/-- Function `searchInHashTable(name)`: `none` is the NULL result. -/
def searchInHashTable (t : HashTable) (name : CStr) : Option CStr :=
  searchChain name (t (hashFunction name))

/-- Every node of the table, bucket by bucket. -/
def entries (t : HashTable) : List HashNode :=
  (List.finRange HASH_TABLE_SIZE).flatMap t

/-! ## Tokenizer -/

/-- The `while (*str == ' ') str++;` loop of `parseSpace`. -/
def skipSpaces : CStr → CStr
  | [] => []
  | c :: rest => if c = ' ' then skipSpaces rest else c :: rest

/-- The loop `while (*end != '\0' && ((*end != ' ' && *end != ',') || in_quote))`
of `parseSpace`, started with `end` at the head of the given string, `prev`
being `*(end - 1)`. It returns the characters `end` moved over, the string
left at `end`, and `in_quote`. -/
def scanToken : Char → Bool → CStr → CStr × CStr × Bool
  | _, in_quote, [] => ([], [], in_quote)
  | prev, in_quote, c :: rest =>
    if (c ≠ ' ' ∧ c ≠ ',') ∨ in_quote = true then
      let in_quote1 := if c = '"' ∧ prev ≠ '\\' then false else in_quote
      let r := scanToken c in_quote1 rest
      (c :: r.1, r.2.1, r.2.2)
    else ([], c :: rest, in_quote)

/-- The outer loop of `parseSpace`; the result lists `parsed[0..i-1]`.

A token that opens with a quote is scanned from behind the quote, and copied
without its first and its last scanned character (`end - str - 1` characters
after `str++`); when nothing follows the opening quote that length is `-1`.
For a token that does not open with a quote, `*(end - 1)` is first read when
`end` has moved, so the `prev` the scan starts with is never looked at. -/
def parseSpaceLoop : Nat → Bool → CStr → Run (List CStr)
  | 0, _, _ => .outOfFuel
  | fuel + 1, in_quote, str =>
    match str with
    | [] => .ok []
    | _ :: _ =>
      match skipSpaces str with
      | [] => .ok []
      | c :: rest =>
        if c = '"' then
          let r := scanToken c true rest
          match r.1 with
          | [] => .fault .negativeLength
          | _ :: _ =>
            (parseSpaceLoop fuel r.2.2 r.2.1).andThen fun toks => .ok (r.1.dropLast :: toks)
        else
          let r := scanToken ' ' in_quote (c :: rest)
          (parseSpaceLoop fuel r.2.2 r.2.1).andThen fun toks => .ok (r.1 :: toks)

/-- Function `parseSpace(str, parsed)`: the tokens written to `parsed` before the
closing NULL. -/
def parseSpace (fuel : Nat) (str : CStr) : Run (List CStr) :=
  parseSpaceLoop fuel false str

/-! ## Shell state -/

/-- The parent's system calls that matter for resources, in program order. -/
inductive Sys
  /-- A `pipe(pipefd)` call and whether it succeeded. -/
  | pipe (ok : Bool)
  /-- A `fork()` call and whether it succeeded. -/
  | fork (ok : Bool)
  /-- A `close(pipefd[0])`. -/
  | closeRead
  /-- A `close(pipefd[1])`. -/
  | closeWrite
  /-- A `waitpid(pid, &status, 0)` for the child just forked. -/
  | waitpid
  /-- A `wait(NULL)`. -/
  | wait
  /-- A `chdir(path)` call and whether it succeeded. -/
  | chdir (path : CStr) (ok : Bool)
deriving DecidableEq

/-- An executor invocation made by `execCommandSeq`. -/
inductive Call
  /-- The call `execArgs(parsedArgs, background)`. -/
  | execArgs (parsed : List CStr) (background : Bool)
  /-- The call `execArgsPiped(parsedArgs, parsedArgsPiped)`. -/
  | execArgsPiped (parsed parsedpipe : List CStr)
  /-- The call `changeDirectory(parsedArgs)`. -/
  | changeDirectory (parsed : List CStr)
deriving DecidableEq

/-- The process-wide state of the shell together with what it has emitted. -/
structure Shell where
  /-- The global `hashTable`. -/
  hashTable : HashTable
  /-- The global `last_exit_status`. -/
  last_exit_status : Int
  /-- The characters printed on standard output by the shell process. -/
  stdout : List Char
  /-- The characters printed on standard error by the shell process. -/
  stderr : List Char
  /-- The system calls made by the shell process. -/
  sys : List Sys
  /-- The executor invocations made by `execCommandSeq`. -/
  calls : List Call
  /-- The command strings `execCommandSeq` has handed to `processString`. -/
  classified : List CStr

/-- The shell at start-up: zero-initialised globals, nothing emitted. -/
def initialShell : Shell := ⟨emptyTable, 0, [], [], [], [], []⟩

/-- The wait status of a child: `WIFEXITED` with its `WEXITSTATUS`, or not exited. -/
inductive WStatus
  /-- The child exited with this code. -/
  | exited (code : Nat)
  /-- The child was terminated by a signal. -/
  | signaled
deriving DecidableEq

/-- What the operating system answers; `k` numbers the executor invocations
of the shell (`calls.length` when the invocation is made). -/
structure World where
  /-- Whether `pipe` succeeds in invocation `k`. -/
  pipeOk : Nat → Bool
  /-- Whether the first `fork` of invocation `k` succeeds. -/
  forkOk : Nat → Bool
  /-- Whether the second `fork` of invocation `k` succeeds. -/
  fork2Ok : Nat → Bool
  /-- The status `waitpid` stores in invocation `k`. -/
  status : Nat → WStatus
  /-- The error text of a failing `chdir` in invocation `k`, `none` on success. -/
  chdirError : Nat → Option CStr

/-! ## Built-ins -/

/-- The text before the first occurrence of `c` and the text after it
(`strchr`, `strstr` with a one-character needle, `strsep` with one delimiter). -/
def splitAtFirst (c : Char) : CStr → Option (CStr × CStr)
  | [] => none
  | d :: rest =>
    if d = c then some ([], rest)
    else match splitAtFirst c rest with
      | none => none
      | some (before, after) => some (d :: before, after)

/-- The test `strncmp(a, b, n) == 0`. -/
def strncmpEq (a b : CStr) (n : Nat) : Bool :=
  decide (a.take n = b.take n)

/-- Function `setEnvVar(parsed)`, called with `parsed[0]` not NULL. It returns `parsed`
as the call leaves it (`*equal_sign = 0` cuts `parsed[1]` down to the name). -/
def setEnvVar (parsed : List CStr) (sh : Shell) : Run (List CStr × Shell) :=
  match parsed[1]? with
  | none =>
    .ok (parsed, { sh with stderr := sh.stderr ++ "Invalid syntax for set command\n".toList })
  | some assignment =>
    match splitAtFirst '=' assignment with
    | none =>
      .ok (parsed, { sh with stderr := sh.stderr ++ "Invalid syntax for set command\n".toList })
    | some (name, value) =>
      let value1 :=
        if value.head? = some '"' ∧ value.getLast? = some '"' then value.dropLast.tail else value
      (insertIntoHashTable sh.hashTable name value1).andThen fun t =>
        .ok (parsed.set 1 name, { sh with hashTable := t })

/-- The text `printf("%d", n)` prints. -/
def printInt (n : Int) : List Char :=
  match n with
  | .ofNat m => Nat.toDigits 10 m
  | .negSucc m => '-' :: Nat.toDigits 10 (m + 1)

/-- Function `getEnvVar(parsed)`, called with `parsed[0]` not NULL. -/
def getEnvVar (parsed : List CStr) (sh : Shell) : Run Shell :=
  match parsed[1]? with
  | none => .fault .nullDeref
  | some name =>
    if name = "?".toList then
      .ok { sh with stdout := sh.stdout ++ printInt sh.last_exit_status ++ "\n".toList }
    else
      match searchInHashTable sh.hashTable name with
      | some value => .ok { sh with stdout := sh.stdout ++ value ++ "\n".toList }
      | none => .ok { sh with stdout := sh.stdout ++ "Variable not found\n".toList }

/-- The `for (int i = 1; parsed[i] != NULL; i++)` loop of `parseEnvVars`. Here
the array is given whole, its NULL entries as `none`, because the function
stores NULL into it and reads on behind that entry. -/
def parseEnvVarsLoop : Nat → Nat → List (Option CStr) → HashTable →
    Run (List (Option CStr) × HashTable)
  | 0, _, _, _ => .outOfFuel
  | fuel + 1, i, parsed, t =>
    match parsed[i]? with
    | none => .fault .outOfBounds
    | some none => .ok (parsed, t)
    | some (some tok) =>
      if tok = "=".toList then
        let parsed1 := parsed.set i none
        match parsed1[i - 1]?, parsed1[i + 1]? with
        | some (some name), some (some value) =>
          (insertIntoHashTable t name value).andThen fun t1 =>
            parseEnvVarsLoop fuel (i + 1) parsed1 t1
        | some _, some _ => .fault .nullDeref
        | _, _ => .fault .outOfBounds
      else parseEnvVarsLoop fuel (i + 1) parsed t

/-- Function `parseEnvVars(parsed)`. No function of FLASH.c calls it. Every
iteration moves `i` up, so the length of the array bounds the loop. -/
def parseEnvVars (parsed : List (Option CStr)) (t : HashTable) :
    Run (List (Option CStr) × HashTable) :=
  parseEnvVarsLoop (parsed.length + 1) 1 parsed t

/-! ## Command classifier -/

/-- The objects `processString` reaches through its pointer arguments: the
command string as the call leaves it, the two token arrays and `background`. -/
structure Args where
  /-- The string at `str`, up to its first NUL. -/
  str : CStr
  /-- The array `parsed`. -/
  parsed : List CStr
  /-- The array `parsedpipe`. -/
  parsedpipe : List CStr
  /-- The flag `*background`. -/
  background : Bool

/-- The tail of `processString` from the `strncmp` tests on `parsed[0]`. -/
def dispatch (piped : Bool) (a : Args) (sh : Shell) : Run (Nat × Args × Shell) :=
  match a.parsed with
  | [] => .fault .nullDeref
  | p0 :: _ =>
    if strncmpEq p0 "set".toList 3 then
      (setEnvVar a.parsed sh).andThen fun r => .ok (0, { a with parsed := r.1 }, r.2)
    else if strncmpEq p0 "get".toList 3 then
      (getEnvVar a.parsed sh).andThen fun sh1 => .ok (0, a, sh1)
    else .ok (if piped then 2 else 1, a, sh)

/-- Function `processString(str, parsed, parsedpipe, background)` with `str` not NULL:
the returned code, the objects behind the pointers and the shell state. -/
def processString (fuel : Nat) (a : Args) (sh : Shell) : Run (Nat × Args × Shell) :=
  if a.str = [] then .ok (0, a, sh)
  else
    let a1 : Args :=
      if a.str.getLast? = some '#' then { a with str := a.str.dropLast, background := true }
      else a
    if a1.str = "exit".toList then .exits 0
    else
      match splitAtFirst '|' a1.str with
      | some (first, second) =>
        (parseSpace fuel first).andThen fun parsed =>
        (parseSpace fuel second).andThen fun parsedpipe =>
        dispatch true { a1 with str := first, parsed := parsed, parsedpipe := parsedpipe } sh
      | none =>
        (parseSpace fuel a1.str).andThen fun parsed =>
        dispatch false { a1 with parsed := parsed } sh

/-! ## Executors -/

/-- The files the child of `execArgs` can open. -/
structure FileSys where
  /-- Whether `open(path, O_RDONLY)` succeeds. -/
  canRead : CStr → Bool
  /-- Whether `open(path, O_WRONLY | O_CREAT | O_TRUNC, 0666)` succeeds. -/
  canWrite : CStr → Bool

/-- How the child of `execArgs` leaves the code of the shell. -/
inductive ChildEnd
  /-- The call `execvp(parsed[0], parsed)`: the file (`none` for NULL) and the
  entries of `parsed` before its first NULL. -/
  | execvp (file : Option CStr) (argv : List CStr)
  /-- After a failed `open`: `perror("open"); exit(EXIT_FAILURE)`. -/
  | openFailed
deriving DecidableEq

/-- The child of `execArgs` when it leaves the code of the shell. -/
structure Child where
  /-- The file put on `STDIN_FILENO` by `dup2`, `none` when it is inherited. -/
  stdin : Option CStr
  /-- The file put on `STDOUT_FILENO` by `dup2`, `none` when it is inherited. -/
  stdout : Option CStr
  /-- The last thing the child does. -/
  ending : ChildEnd
deriving DecidableEq

/-- The `for (int i = 0; parsed[i] != NULL; i++)` loop in the child of `execArgs`,
at index `i` with the entries from `parsed[i]` on, followed by the `execvp`.
After `parsed[i] = NULL` the array ends at `i`. An `open(NULL, ...)` fails. -/
def execArgsChildLoop (fs : FileSys) (parsed : List CStr) : Nat → List CStr → Child
  | _, [] => ⟨none, none, .execvp parsed.head? parsed⟩
  | i, tok :: rest =>
    if tok = "<".toList then
      match rest.head? with
      | none => ⟨none, none, .openFailed⟩
      | some file =>
        if fs.canRead file then
          ⟨some file, none, .execvp (parsed.take i).head? (parsed.take i)⟩
        else ⟨none, none, .openFailed⟩
    else if tok = ">".toList then
      match rest.head? with
      | none => ⟨none, none, .openFailed⟩
      | some file =>
        if fs.canWrite file then
          ⟨none, some file, .execvp (parsed.take i).head? (parsed.take i)⟩
        else ⟨none, none, .openFailed⟩
    else execArgsChildLoop fs parsed (i + 1) rest

/-- The child branch (`pid == 0`) of `execArgs(parsed, background)`. -/
def execArgsChild (fs : FileSys) (parsed : List CStr) : Child :=
  execArgsChildLoop fs parsed 0 parsed

/-- The parent side of `execArgs(parsed, background)`; `forkOk` and `status`
are the answers of `fork` and `waitpid`. -/
def execArgs (forkOk : Bool) (status : WStatus) (_parsed : List CStr) (background : Bool)
    (sh : Shell) : Shell :=
  if forkOk = false then
    { sh with stdout := sh.stdout ++ "Failed to fork child\n".toList, sys := sh.sys ++ [.fork false] }
  else if background = false then
    match status with
    | .exited code =>
      { sh with last_exit_status := code, sys := sh.sys ++ [.fork true, .waitpid] }
    | .signaled => { sh with sys := sh.sys ++ [.fork true, .waitpid] }
  else { sh with sys := sh.sys ++ [.fork true] }

/-- The parent side of `execArgsPiped(parsed, parsedpipe)`; `pipeOk`, `forkOk`
and `fork2Ok` are the answers of `pipe` and of the two `fork` calls. -/
def execArgsPiped (pipeOk forkOk fork2Ok : Bool) (_parsed _parsedpipe : List CStr)
    (sh : Shell) : Shell :=
  if pipeOk = false then
    { sh with stdout := sh.stdout ++ "Pipe could not be initialized\n".toList,
              sys := sh.sys ++ [.pipe false] }
  else if forkOk = false then
    { sh with stdout := sh.stdout ++ "Could not fork\n".toList,
              sys := sh.sys ++ [.pipe true, .fork false] }
  else if fork2Ok = false then
    { sh with stdout := sh.stdout ++ "Could not fork\n".toList,
              sys := sh.sys ++ [.pipe true, .fork true, .fork false] }
  else
    { sh with sys := sh.sys ++ [.pipe true, .fork true, .fork true,
                                .closeRead, .closeWrite, .wait, .wait] }

/-- Function `changeDirectory(parsed)`, called with `parsed[0]` not NULL; `chdirError`
is the error text of `chdir`, `none` when it succeeds. -/
def changeDirectory (chdirError : Option CStr) (parsed : List CStr) (sh : Shell) : Shell :=
  match parsed[1]? with
  | none => { sh with stderr := sh.stderr ++ "Expected argument to \"cd\"\n".toList }
  | some path =>
    match chdirError with
    | none => { sh with sys := sh.sys ++ [.chdir path true] }
    | some e =>
      { sh with stderr := sh.stderr ++ "chdir failed: ".toList ++ e ++ "\n".toList,
                sys := sh.sys ++ [.chdir path false] }

/-! ## Sequencer -/

/-- The call `strsep(&rest, ",")` with `rest` not NULL: the command returned and the new `rest`. -/
def strsep (rest : CStr) : CStr × Option CStr :=
  match splitAtFirst ',' rest with
  | none => (rest, none)
  | some (command, rest1) => (command, some rest1)

/-- The body of the loop of `execCommandSeq` for one `command`: the classifier,
then the executor its return value selects. It returns the locals
`parsedArgs`, `parsedArgsPiped`, `background` (with the command string as the
classifier left it) and the shell state. The command string handed to
`processString` is noted in `classified`. The arrays `parsedArgs` and
`parsedArgsPiped` have `MAXLIST` entries: when the classifier has stored
`MAXLIST` tokens or more in one of them, the tokenizer has written behind it. -/
def execCommand (w : World) (fuel : Nat) (command : CStr) (a : Args) (sh : Shell) :
    Run (Args × Shell) :=
  (processString fuel { a with str := command }
      { sh with classified := sh.classified ++ [command] }).andThen fun res =>
    let execFlag := res.1
    let a1 := res.2.1
    let sh1 := res.2.2
    let k := sh1.calls.length
    if MAXLIST ≤ a1.parsed.length ∨ MAXLIST ≤ a1.parsedpipe.length then .fault .bufferOverflow
    else if execFlag = 1 then
      match a1.parsed with
      | [] => .fault .nullDeref
      | p0 :: _ =>
        if p0 = "cd".toList then
          .ok (a1, changeDirectory (w.chdirError k) a1.parsed
                { sh1 with calls := sh1.calls ++ [.changeDirectory a1.parsed] })
        else
          .ok (a1, execArgs (w.forkOk k) (w.status k) a1.parsed a1.background
                { sh1 with calls := sh1.calls ++ [.execArgs a1.parsed a1.background] })
    else if execFlag = 2 then
      (parseSpace fuel a1.str).andThen fun parsed =>
        .ok ({ a1 with parsed := parsed },
             execArgsPiped (w.pipeOk k) (w.forkOk k) (w.fork2Ok k) parsed a1.parsedpipe
               { sh1 with calls := sh1.calls ++ [.execArgsPiped parsed a1.parsedpipe] })
    else .ok (a1, sh1)

/-- The `while ((command = strsep(&rest, ",")) != NULL)` loop of `execCommandSeq`;
`rest` is `none` when it is NULL. `fuel` is handed to every tokenizer run, the
next argument bounds the number of iterations of this loop. -/
def execCommandSeqLoop (w : World) (fuel : Nat) : Nat → Option CStr → Args → Shell → Run Shell
  | 0, _, _, _ => .outOfFuel
  | _ + 1, none, _, sh => .ok sh
  | n + 1, some r, a, sh =>
    (execCommand w fuel (strsep r).1 a sh).andThen fun st =>
      execCommandSeqLoop w fuel n (strsep r).2 st.1 st.2

/-- Function `execCommandSeq(inputString)`: the locals `parsedArgs`, `parsedArgsPiped`
and `background` are initialised once, before the loop. -/
def execCommandSeq (w : World) (fuel : Nat) (inputString : CStr) (sh : Shell) : Run Shell :=
  execCommandSeqLoop w fuel fuel (some inputString) ⟨[], [], [], false⟩ sh

/-- A world in which every system call succeeds and every child exits with 0. -/
def calmWorld : World :=
  ⟨fun _ => true, fun _ => true, fun _ => true, fun _ => .exited 0, fun _ => none⟩

/-- A file system in which every `open` succeeds. -/
def allFiles : FileSys := ⟨fun _ => true, fun _ => true⟩

/-- What a run returned, when it returned. -/
def Run.result {α : Type} : Run α → Option α
  | .ok a => some a
  | _ => none

/-! ## Notions of the specification -/

/-- The store reached from a table by `insertIntoHashTable` calls with the
given (name, value) pairs, in order. -/
def insertAllFrom : HashTable → List (CStr × CStr) → Run HashTable
  | t, [] => .ok t
  | t, p :: more => (insertIntoHashTable t p.1 p.2).andThen fun t1 => insertAllFrom t1 more

/-- The store reached from the empty table by `insertIntoHashTable` calls with
the given (name, value) pairs, in order. -/
def insertAll (ins : List (CStr × CStr)) : Run HashTable :=
  insertAllFrom emptyTable ins

/-- The substrings obtained by cutting a line at every comma, empty ones
included, in the words of the specification of the sequencer. -/
def cutAtCommas : CStr → List CStr
  | [] => [[]]
  | c :: line =>
    if c = ',' then [] :: cutAtCommas line
    else
      match cutAtCommas line with
      | [] => [[c]]
      | command :: more => (c :: command) :: more

/-- The body of the loop of `execCommandSeq` run on each command string of a
list, in order; a command that exits or faults ends the run. -/
def runCommands (w : World) (fuel : Nat) : List CStr → Args → Shell → Run Shell
  | [], _, sh => .ok sh
  | command :: more, a, sh =>
    (execCommand w fuel command a sh).andThen fun st => runCommands w fuel more st.1 st.2

/-- The maximal runs of non-space characters of a string, in input order: the
string is split at every space and the empty pieces are left out. -/
def nonSpaceRuns (s : CStr) : List CStr :=
  (s.splitOn ' ').filter fun run => !run.isEmpty

end FLASH

namespace FLASH

/-! ## The variable store -/

theorem appendAtEnd_eq (n : HashNode) (l : List HashNode) : appendAtEnd n l = l ++ [n] := by
  induction l with
  | nil => rfl
  | cons a l ih => simp [appendAtEnd, ih]

theorem searchChain_append (name : CStr) (l l2 : List HashNode) :
    searchChain name (l ++ l2) =
      match searchChain name l with
      | some v => some v
      | none => searchChain name l2 := by
  induction l with
  | nil => rfl
  | cons a l ih =>
    by_cases h : a.name = name
    · simp [searchChain, h]
    · simp [searchChain, h, ih]

theorem link_bucket_same (t : HashTable) (index : Fin HASH_TABLE_SIZE) (node : HashNode) :
    linkNode t index node index = t index ++ [node] := by
  simp [linkNode, appendAtEnd_eq]

theorem link_bucket_other (t : HashTable) (index i : Fin HASH_TABLE_SIZE) (node : HashNode)
    (h : i ≠ index) : linkNode t index node i = t i := by
  simp [linkNode, Function.update_noteq h]

theorem storedName_short (name value : CStr) (h : name.length < MAX_ENV_VAR_LEN) :
    storedName name value = name := by
  simp [storedName, h]

/-- Within the bounds of the node (a name of at most 16 and a value of at
most 240 characters) the insert returns, and the node holds the name and the
value as they were given. -/
theorem insert_ok (t : HashTable) (name value : CStr) (hn : name.length < MAX_ENV_VAR_LEN)
    (hv : value.length < MAX_ENV_VAL_LEN) :
    insertIntoHashTable t name value = .ok (linkNode t (hashFunction name) ⟨name, value⟩) := by
  have h1 : ¬ (MAX_ENV_VAR_LEN + MAX_ENV_VAL_LEN ≤ name.length) := by
    simp only [MAX_ENV_VAR_LEN, MAX_ENV_VAL_LEN] at hn ⊢
    omega
  have h2 : ¬ (MAX_ENV_VAL_LEN ≤ value.length) := by omega
  simp only [insertIntoHashTable, if_neg h1, if_neg h2, storedName_short name value hn]

/-- A value of 241 characters or more is copied over the end of the array
`value`, the last of the node. -/
theorem insert_long_value (t : HashTable) (name value : CStr)
    (hv : MAX_ENV_VAL_LEN ≤ value.length) :
    insertIntoHashTable t name value = .fault .bufferOverflow := by
  unfold insertIntoHashTable
  by_cases h1 : MAX_ENV_VAR_LEN + MAX_ENV_VAL_LEN ≤ name.length
  · simp only [if_pos h1]
  · simp only [if_neg h1, if_pos hv]

/-- An insert that returns has linked one node into the bucket of the name:
the node holds the stored name and the value. -/
theorem insert_eq_ok (t t1 : HashTable) (name value : CStr)
    (h : insertIntoHashTable t name value = .ok t1) :
    t1 = linkNode t (hashFunction name) ⟨storedName name value, value⟩ := by
  unfold insertIntoHashTable at h
  split at h
  · exact Run.noConfusion h
  · split at h
    · exact Run.noConfusion h
    · injection h with h
      exact h.symm

/-- Looking a name up right after a node of that name was linked into its
bucket: an older entry of that name wins, the new value is found only when
there was none. -/
theorem search_link_same (t : HashTable) (name value : CStr) :
    searchInHashTable (linkNode t (hashFunction name) ⟨name, value⟩) name =
      match searchInHashTable t name with
      | some old => some old
      | none => some value := by
  unfold searchInHashTable
  rw [link_bucket_same, searchChain_append]
  cases searchChain name (t (hashFunction name)) <;> simp [searchChain]

/-- Linking a node leaves the lookup of every name other than the one stored
in the node as it was, whatever the bucket. -/
theorem search_link_other (t : HashTable) (index : Fin HASH_TABLE_SIZE) (stored m value : CStr)
    (h : stored ≠ m) :
    searchInHashTable (linkNode t index ⟨stored, value⟩) m = searchInHashTable t m := by
  unfold searchInHashTable
  by_cases hb : hashFunction m = index
  · rw [hb, link_bucket_same, searchChain_append]
    cases searchChain m (t index) <;> simp [searchChain, h]
  · rw [link_bucket_other t index _ _ hb]

/-- A second node of a name never changes what lookup returns for it. -/
theorem search_link_twice (t : HashTable) (name v1 v2 : CStr) :
    searchInHashTable
        (linkNode (linkNode t (hashFunction name) ⟨name, v1⟩) (hashFunction name) ⟨name, v2⟩)
        name =
      searchInHashTable (linkNode t (hashFunction name) ⟨name, v1⟩) name := by
  rw [search_link_same (linkNode t (hashFunction name) ⟨name, v1⟩), search_link_same t]
  cases searchInHashTable t name <;> rfl

/-- Within the bounds of the node, two inserts of one name return and the
second leaves the lookup of the name as the first left it. -/
theorem search_insert_twice (t : HashTable) (name v1 v2 : CStr)
    (hn : name.length < MAX_ENV_VAR_LEN) (h1 : v1.length < MAX_ENV_VAL_LEN)
    (h2 : v2.length < MAX_ENV_VAL_LEN) :
    ∃ t1 t2, insertIntoHashTable t name v1 = .ok t1 ∧ insertIntoHashTable t1 name v2 = .ok t2 ∧
      searchInHashTable t2 name = searchInHashTable t1 name :=
  ⟨_, _, insert_ok t name v1 hn h1, insert_ok _ name v2 hn h2, search_link_twice t name v1 v2⟩

/-- C1, evaluated on the code: after `insertIntoHashTable("x", "1")` and then
`insertIntoHashTable("x", "2")` on the empty table, `searchInHashTable("x")`
returns the first value `1`, not the most recently inserted `2`; and on every
table, for a name and values within the bounds of the node, the second insert
of the name leaves its lookup as the first insert left it. -/
theorem C1_lookup_returns_first_inserted :
    ((insertIntoHashTable emptyTable "x".toList "1".toList).andThen fun t1 =>
        insertIntoHashTable t1 "x".toList "2".toList).result.map
      (fun t2 => searchInHashTable t2 "x".toList) = some (some "1".toList) ∧
    ∀ (t : HashTable) (name v1 v2 : CStr), name.length < MAX_ENV_VAR_LEN →
      v1.length < MAX_ENV_VAL_LEN → v2.length < MAX_ENV_VAL_LEN →
      ∃ t1 t2, insertIntoHashTable t name v1 = .ok t1 ∧
        insertIntoHashTable t1 name v2 = .ok t2 ∧
        searchInHashTable t2 name = searchInHashTable t1 name :=
  ⟨by decide, search_insert_twice⟩

/-! ## The tokenizer and the classifier -/

/-- With `in_quote` clear, an iteration of the outer loop of `parseSpace` that
starts at a comma copies an empty token and leaves `str` where it was: the
loop never ends. -/
theorem parseSpaceLoop_at_comma (fuel : Nat) (rest : CStr) :
    parseSpaceLoop fuel false (',' :: rest) = .outOfFuel := by
  induction fuel with
  | zero => rfl
  | succ n ih =>
    have h : parseSpaceLoop (n + 1) false (',' :: rest) =
        (parseSpaceLoop n false (',' :: rest)).andThen fun toks => .ok ([] :: toks) := by
      simp [parseSpaceLoop, skipSpaces, scanToken]
    rw [h, ih]
    rfl

theorem skipSpaces_append_comma (u v : CStr) :
    skipSpaces (u ++ ',' :: v) = skipSpaces u ++ ',' :: v := by
  induction u with
  | nil =>
    have h : ¬ (',' = ' ') := by decide
    simp [skipSpaces, h]
  | cons c u ih =>
    by_cases hc : c = ' '
    · simp [skipSpaces, hc, ih]
    · simp [skipSpaces, hc]

theorem not_mem_skipSpaces (u : CStr) (h : '"' ∉ u) : '"' ∉ skipSpaces u := by
  induction u with
  | nil => simp [skipSpaces]
  | cons c u ih =>
    have hu : '"' ∉ u := fun hm => h (List.mem_cons_of_mem _ hm)
    by_cases hc : c = ' '
    · simp only [skipSpaces, hc, if_true]
      exact ih hu
    · simp only [skipSpaces, hc, if_false]
      exact h

/-- Outside a quoted region, scanning a text without double quote that is
followed by a comma stops at or before that comma, still outside a quoted region. -/
theorem scanToken_before_comma (u : CStr) :
    ∀ (prev : Char) (v : CStr), '"' ∉ u →
      ∃ tok u2, scanToken prev false (u ++ ',' :: v) = (tok, u2 ++ ',' :: v, false) ∧ '"' ∉ u2 := by
  induction u with
  | nil =>
    intro prev v _
    exact ⟨[], [], by simp [scanToken], by simp⟩
  | cons c u ih =>
    intro prev v h
    have hc : c ≠ '"' := fun e => h (e ▸ List.mem_cons_self _ _)
    have hu : '"' ∉ u := fun hm => h (List.mem_cons_of_mem _ hm)
    by_cases hsep : c ≠ ' ' ∧ c ≠ ','
    · obtain ⟨tok, u2, h1, h2⟩ := ih c v hu
      refine ⟨c :: tok, u2, ?_, h2⟩
      simp [scanToken, hsep, hc, h1]
    · refine ⟨[], c :: u, ?_, h⟩
      simp only [List.cons_append, scanToken]
      rw [if_neg]
      · rfl
      · rintro (h3 | h3)
        · exact hsep h3
        · exact Bool.noConfusion h3

/-- The tokenizer never returns on a string in which a comma comes before any
double quote: whatever the fuel, it runs out. -/
theorem parseSpaceLoop_comma (fuel : Nat) :
    ∀ (u v : CStr), '"' ∉ u → parseSpaceLoop fuel false (u ++ ',' :: v) = .outOfFuel := by
  induction fuel with
  | zero => intro u v _; rfl
  | succ n ih =>
    intro u v h
    have hs := skipSpaces_append_comma u v
    have hq := not_mem_skipSpaces u h
    cases hu : u ++ ',' :: v with
    | nil => simp at hu
    | cons x xs =>
      rw [← hu]
      cases hk : skipSpaces u with
      | nil =>
        rw [hk] at hs
        have hstep : parseSpaceLoop (n + 1) false (u ++ ',' :: v) =
            (parseSpaceLoop n false ([] ++ ',' :: v)).andThen fun toks => .ok ([] :: toks) := by
          rw [hu, parseSpaceLoop, ← hu, hs]
          simp [scanToken]
        rw [hstep, ih [] v (by simp)]
        rfl
      | cons c rest =>
        rw [hk] at hs hq
        have hc : c ≠ '"' := fun e => hq (e ▸ List.mem_cons_self _ _)
        obtain ⟨tok, u2, h1, h2⟩ := scanToken_before_comma (c :: rest) ' ' v hq
        have hstep : parseSpaceLoop (n + 1) false (u ++ ',' :: v) =
            (parseSpaceLoop n false (u2 ++ ',' :: v)).andThen fun toks => .ok (tok :: toks) := by
          rw [hu, parseSpaceLoop, ← hu, hs]
          simp only [List.cons_append, if_neg hc] at h1 ⊢
          rw [h1]
        rw [hstep, ih u2 v h2]
        rfl

/-- The tokenizer does not return on any string that has a comma and no double
quote before it. -/
theorem parseSpace_comma (fuel : Nat) (u v : CStr) (h : '"' ∉ u) :
    parseSpace fuel (u ++ ',' :: v) = .outOfFuel :=
  parseSpaceLoop_comma fuel u v h

/-- The function `parseEnvVars`, had it been called on the tokens `x = 5`,
stores `5` under `x`. -/
theorem parseEnvVars_inline_assignment :
    (parseEnvVars [some "x".toList, some "=".toList, some "5".toList, none] emptyTable).result.map
      (fun r => (r.1, searchInHashTable r.2 "x".toList)) =
    some ([some "x".toList, none, some "5".toList, none], some "5".toList) := by
  decide

/-- The empty command string: `processString` returns 0 and changes nothing. -/
theorem processString_empty (fuel : Nat) (parsed parsedpipe : List CStr) (background : Bool)
    (sh : Shell) :
    processString fuel ⟨[], parsed, parsedpipe, background⟩ sh =
      .ok (0, ⟨[], parsed, parsedpipe, background⟩, sh) := rfl

/-- C2, evaluated on the code: classifying `set y="hello world"` on the initial
store returns 0 and stores the text `"hello` (opening quote kept, cut at the
space) under `y`, and classifying `get y` afterwards prints that text, not
`hello world`. -/
theorem C2_quoted_value_with_space_is_cut :
    ((processString 32 ⟨"set y=\"hello world\"".toList, [], [], false⟩ initialShell).andThen
        fun r => processString 32 { r.2.1 with str := "get y".toList } r.2.2).result.map
      (fun r => (r.1, searchInHashTable r.2.2.hashTable "y".toList, r.2.2.stdout)) =
    some (0, some "\"hello".toList, "\"hello\n".toList) := by
  decide

/-- C4, evaluated on the code: the command `setup x=1`, whose first token is not
the keyword `set`, is handled by the set built-in (code 0 instead of 1, and `x`
is stored); the command `getconf x` is handled by the get built-in (code 0
instead of 1, and a message is printed). -/
theorem C4_longer_word_runs_builtin :
    (processString 32 ⟨"setup x=1".toList, [], [], false⟩ initialShell).result.map
      (fun r => (r.1, searchInHashTable r.2.2.hashTable "x".toList)) =
      some (0, some "1".toList) ∧
    (processString 32 ⟨"getconf x".toList, [], [], false⟩ initialShell).result.map
      (fun r => (r.1, r.2.2.stdout)) =
      some (0, "Variable not found\n".toList) := by
  decide

theorem skipSpaces_replicate (n : Nat) : skipSpaces (List.replicate n ' ') = [] := by
  induction n with
  | zero => rfl
  | succ n ih => simp [List.replicate_succ, skipSpaces, ih]

theorem splitAtFirst_replicate (n : Nat) : splitAtFirst '|' (List.replicate n ' ') = none := by
  induction n with
  | zero => rfl
  | succ n ih =>
    have h : ¬ (' ' = '|') := by decide
    simp [List.replicate_succ, splitAtFirst, ih, h]

/-- On a string of spaces the tokenizer returns no token: `parsed[0]` is NULL. -/
theorem parseSpace_replicate (fuel n : Nat) :
    parseSpace (fuel + 1) (List.replicate n ' ') = .ok [] := by
  cases n with
  | zero => rfl
  | succ n =>
    have h := skipSpaces_replicate (n + 1)
    rw [List.replicate_succ] at h
    simp [parseSpace, parseSpaceLoop, List.replicate_succ, h]

theorem replicate_ne_exit (n : Nat) : List.replicate n ' ' ≠ "exit".toList := by
  cases n with
  | zero => decide
  | succ n =>
    intro h
    rw [List.replicate_succ] at h
    have h2 := List.head_eq_of_cons_eq h
    exact absurd h2 (by decide)

/-- On a command made of one or more spaces the classifier hands the NULL
`parsed[0]` to `strncmp`. -/
theorem processString_blank (fuel n : Nat) (parsed parsedpipe : List CStr)
    (background : Bool) (sh : Shell) :
    processString (fuel + 1) ⟨List.replicate (n + 1) ' ', parsed, parsedpipe, background⟩ sh =
      .fault .nullDeref := by
  have h1 : List.replicate (n + 1) ' ' ≠ [] := by simp [List.replicate_succ]
  have h2 : (List.replicate (n + 1) ' ').getLast? ≠ some '#' := by
    rw [List.getLast?_replicate]
    simp
  simp only [processString, h1, h2, if_false, replicate_ne_exit, splitAtFirst_replicate,
    parseSpace_replicate]
  rfl

/-- C8, evaluated on the code: for every command made of one or more spaces
(the failing input is the single space), and for every command made of spaces
followed by `#`, the tokenizer leaves `parsed[0]` NULL and `processString`
hands it to `strncmp`: undefined behaviour instead of the return value 0. -/
theorem C8_blank_command_reads_null (fuel n : Nat) (parsed parsedpipe : List CStr)
    (background : Bool) (sh : Shell) :
    processString (fuel + 1) ⟨List.replicate (n + 1) ' ', parsed, parsedpipe, background⟩ sh =
      .fault .nullDeref ∧
    processString (fuel + 1) ⟨List.replicate n ' ' ++ ['#'], parsed, parsedpipe, background⟩ sh =
      .fault .nullDeref := by
  constructor
  · have h1 : List.replicate (n + 1) ' ' ≠ [] := by simp [List.replicate_succ]
    have h2 : (List.replicate (n + 1) ' ').getLast? ≠ some '#' := by
      rw [List.getLast?_replicate]
      simp
    simp only [processString, h1, h2, if_false, replicate_ne_exit, splitAtFirst_replicate,
      parseSpace_replicate]
    rfl
  · have h1 : List.replicate n ' ' ++ ['#'] ≠ [] := by simp
    have h2 : (List.replicate n ' ' ++ ['#']).getLast? = some '#' := by simp
    simp only [processString, h1, h2, if_false, if_true, List.dropLast_concat,
      replicate_ne_exit, splitAtFirst_replicate, parseSpace_replicate]
    rfl

/-! ## The executors and the sequencer -/

@[simp] theorem execArgs_calls (f : Bool) (st : WStatus) (p : List CStr) (b : Bool) (sh : Shell) :
    (execArgs f st p b sh).calls = sh.calls := by
  unfold execArgs
  cases f <;> cases b <;> cases st <;> rfl

@[simp] theorem execArgs_hashTable (f : Bool) (st : WStatus) (p : List CStr) (b : Bool)
    (sh : Shell) : (execArgs f st p b sh).hashTable = sh.hashTable := by
  unfold execArgs
  cases f <;> cases b <;> cases st <;> rfl

@[simp] theorem execArgs_stderr (f : Bool) (st : WStatus) (p : List CStr) (b : Bool)
    (sh : Shell) : (execArgs f st p b sh).stderr = sh.stderr := by
  unfold execArgs
  cases f <;> cases b <;> cases st <;> rfl

/-- C5, evaluated on the code: on the line `a#,b` the second command `b`, which
has no `#`, is handed to `execArgs` with `background` set, in every world:
`background` is set by the first command and never cleared. -/
theorem C5_background_flag_is_never_cleared (w : World) :
    (execCommandSeq w 16 "a#,b".toList initialShell).result.map (fun sh => sh.calls) =
      some [.execArgs ["a".toList] true, .execArgs ["b".toList] true] := by
  have h : execCommandSeq w 16 "a#,b".toList initialShell =
      .ok (execArgs
        (w.forkOk (execArgs (w.forkOk 0) (w.status 0) ["a".toList] true
            { initialShell with classified := ["a#".toList],
                                calls := [.execArgs ["a".toList] true] }).calls.length)
        (w.status (execArgs (w.forkOk 0) (w.status 0) ["a".toList] true
            { initialShell with classified := ["a#".toList],
                                calls := [.execArgs ["a".toList] true] }).calls.length)
        ["b".toList] true
        { (execArgs (w.forkOk 0) (w.status 0) ["a".toList] true
            { initialShell with classified := ["a#".toList],
                                calls := [.execArgs ["a".toList] true] }) with
          classified := (execArgs (w.forkOk 0) (w.status 0) ["a".toList] true
            { initialShell with classified := ["a#".toList],
                                calls := [.execArgs ["a".toList] true] }).classified ++ ["b".toList],
          calls := (execArgs (w.forkOk 0) (w.status 0) ["a".toList] true
            { initialShell with classified := ["a#".toList],
                                calls := [.execArgs ["a".toList] true] }).calls ++
              [.execArgs ["b".toList] true] }) := rfl
  rw [h]
  simp [Run.result]

/-- C7, evaluated on the code: on the line `x = 5` nothing is stored under `x`
and the three tokens are handed to `execArgs` as a program invocation, in every
world; a following `get x` prints the not-found message. `parseEnvVars`, which
would consume such tokens, has no caller. -/
theorem C7_inline_assignment_is_executed (w : World) :
    (execCommandSeq w 16 "x = 5".toList initialShell).result.map
      (fun sh => (sh.calls, searchInHashTable sh.hashTable "x".toList)) =
      some ([.execArgs ["x".toList, "=".toList, "5".toList] false], none) ∧
    (execCommandSeq calmWorld 16 "x = 5,get x".toList initialShell).result.map
      (fun sh => sh.stdout) = some "Variable not found\n".toList := by
  refine ⟨?_, by decide⟩
  have h : execCommandSeq w 16 "x = 5".toList initialShell =
      .ok (execArgs (w.forkOk 0) (w.status 0) ["x".toList, "=".toList, "5".toList] false
        { initialShell with
          classified := ["x = 5".toList],
          calls := [.execArgs ["x".toList, "=".toList, "5".toList] false] }) :=
    rfl
  rw [h]
  simp only [Run.result, Option.map, execArgs_calls, execArgs_hashTable]
  rfl

/-- Two nodes of one name linked into its bucket stand at the end of its chain. -/
theorem link_twice_bucket (t : HashTable) (name v1 v2 : CStr) :
    linkNode (linkNode t (hashFunction name) ⟨name, v1⟩) (hashFunction name) ⟨name, v2⟩
        (hashFunction name) =
      t (hashFunction name) ++ [⟨name, v1⟩, ⟨name, v2⟩] := by
  rw [link_bucket_same, link_bucket_same]
  simp

theorem flatMap_update_of_not_mem (t : HashTable) (i : Fin HASH_TABLE_SIZE) (x : List HashNode)
    (l : List (Fin HASH_TABLE_SIZE)) (h : i ∉ l) :
    l.flatMap (Function.update t i x) = l.flatMap t := by
  induction l with
  | nil => rfl
  | cons a l ih =>
    have ha : a ≠ i := fun e => h (e ▸ List.mem_cons_self _ _)
    have hl : i ∉ l := fun hm => h (List.mem_cons_of_mem _ hm)
    simp [List.flatMap_cons, Function.update_noteq ha, ih hl]

theorem length_flatMap_update (t : HashTable) (i : Fin HASH_TABLE_SIZE) (n : HashNode)
    (l : List (Fin HASH_TABLE_SIZE)) (hnd : l.Nodup) (hi : i ∈ l) :
    (l.flatMap (Function.update t i (t i ++ [n]))).length = (l.flatMap t).length + 1 := by
  induction l with
  | nil => simp at hi
  | cons a l ih =>
    rw [List.nodup_cons] at hnd
    by_cases ha : a = i
    · subst ha
      rw [List.flatMap_cons, List.flatMap_cons, flatMap_update_of_not_mem t a _ l hnd.1]
      simp
      omega
    · have hil : i ∈ l := by
        rcases List.mem_cons.mp hi with h | h
        · exact absurd h.symm ha
        · exact h
      rw [List.flatMap_cons, List.flatMap_cons, Function.update_noteq ha]
      simp only [List.length_append]
      rw [ih hnd.2 hil]
      omega

/-- Linking a node adds one entry to the table. -/
theorem entries_link_length (t : HashTable) (index : Fin HASH_TABLE_SIZE) (node : HashNode) :
    (entries (linkNode t index node)).length = (entries t).length + 1 := by
  unfold entries linkNode
  simp only [appendAtEnd_eq]
  exact length_flatMap_update t index node _ (List.nodup_finRange _) (List.mem_finRange _)

/-- Every insert that returns adds one entry to the table, whether or not the
name is present. -/
theorem entries_insert_length (t t1 : HashTable) (name value : CStr)
    (h : insertIntoHashTable t name value = .ok t1) :
    (entries t1).length = (entries t).length + 1 := by
  rw [insert_eq_ok t t1 name value h]
  exact entries_link_length _ _ _

/-- Within the bounds of the node, two inserts of one name return and leave
two nodes of that name at the end of its chain. -/
theorem insert_twice_bucket (t : HashTable) (name v1 v2 : CStr)
    (hn : name.length < MAX_ENV_VAR_LEN) (h1 : v1.length < MAX_ENV_VAL_LEN)
    (h2 : v2.length < MAX_ENV_VAL_LEN) :
    ∃ t1 t2, insertIntoHashTable t name v1 = .ok t1 ∧ insertIntoHashTable t1 name v2 = .ok t2 ∧
      t2 (hashFunction name) = t (hashFunction name) ++ [⟨name, v1⟩, ⟨name, v2⟩] :=
  ⟨_, _, insert_ok t name v1 hn h1, insert_ok _ name v2 hn h2, link_twice_bucket t name v1 v2⟩

/-- C9, evaluated on the code: after `insertIntoHashTable("x", "1")` and
`insertIntoHashTable("x", "2")` on the empty table the table holds two entries,
both named `x`: the second insert did not overwrite and the number of entries
went from one to two. On every table an insert that returns adds one entry,
and two inserts of a name, within the bounds of the node, leave two nodes of
that name at the end of its chain. -/
theorem C9_same_name_is_stored_twice :
    (insertIntoHashTable emptyTable "x".toList "1".toList).result.map entries =
      some [⟨"x".toList, "1".toList⟩] ∧
    ((insertIntoHashTable emptyTable "x".toList "1".toList).andThen fun t1 =>
        insertIntoHashTable t1 "x".toList "2".toList).result.map entries =
      some [⟨"x".toList, "1".toList⟩, ⟨"x".toList, "2".toList⟩] ∧
    (∀ (t t1 : HashTable) (name value : CStr), insertIntoHashTable t name value = .ok t1 →
      (entries t1).length = (entries t).length + 1) ∧
    ∀ (t : HashTable) (name v1 v2 : CStr), name.length < MAX_ENV_VAR_LEN →
      v1.length < MAX_ENV_VAL_LEN → v2.length < MAX_ENV_VAL_LEN →
      ∃ t1 t2, insertIntoHashTable t name v1 = .ok t1 ∧
        insertIntoHashTable t1 name v2 = .ok t2 ∧
        t2 (hashFunction name) = t (hashFunction name) ++ [⟨name, v1⟩, ⟨name, v2⟩] :=
  ⟨by decide, by decide, entries_insert_length, insert_twice_bucket⟩

/-! ## Redirection in the child of `execArgs` -/

/-- The scan of the child, standing at index `done.length` behind tokens `done`
already passed, with tokens `pre` free of redirection operators before the
first operator: it ends in `execvp` with exactly the tokens before the operator. -/
theorem execArgsChildLoop_ending (fs : FileSys) (op file : CStr) (post : List CStr)
    (hop : op = "<".toList ∨ op = ">".toList)
    (hopen : if op = "<".toList then fs.canRead file = true else fs.canWrite file = true)
    (pre : List CStr) :
    ∀ (done : List CStr), (∀ tok ∈ pre, tok ≠ "<".toList ∧ tok ≠ ">".toList) →
      (execArgsChildLoop fs (done ++ pre ++ op :: file :: post) done.length
          (pre ++ op :: file :: post)).ending =
        .execvp (done ++ pre).head? (done ++ pre) := by
  induction pre with
  | nil =>
    intro done _
    have htake : List.take done.length (done ++ op :: file :: post) = done := by simp
    rcases hop with h | h
    · subst h
      simp only [if_true] at hopen
      simp [execArgsChildLoop, hopen, htake]
    · subst h
      have hne : ¬ (">".toList = "<".toList) := by decide
      simp only [hne, if_false] at hopen
      simp [execArgsChildLoop, hopen, htake, hne]
  | cons tok pre ih =>
    intro done hpre
    have h1 := (hpre tok (List.mem_cons_self _ _)).1
    have h2 := (hpre tok (List.mem_cons_self _ _)).2
    have hrest : ∀ t ∈ pre, t ≠ "<".toList ∧ t ≠ ">".toList :=
      fun t ht => hpre t (List.mem_cons_of_mem _ ht)
    have := ih (done ++ [tok]) hrest
    simp only [List.append_assoc, List.singleton_append, List.length_append, List.length_singleton,
      List.cons_append] at this ⊢
    rw [execArgsChildLoop, if_neg h1, if_neg h2]
    exact this

/-- C6, the claim as stated fails: for the tokens `sort < in.txt -r`, with every
file openable, the child calls `execvp` with the argument list `[sort]`; the
token `-r` that follows the filename is not passed, so the list is not the
token sequence with only positions 1 and 2 removed. -/
theorem C6_tokens_after_filename_are_dropped :
    (execArgsChild allFiles ["sort".toList, "<".toList, "in.txt".toList, "-r".toList]).ending =
      .execvp (some "sort".toList) ["sort".toList] ∧
    (execArgsChild allFiles ["sort".toList, "<".toList, "in.txt".toList, "-r".toList]).ending ≠
      .execvp (some "sort".toList) ["sort".toList, "-r".toList] := by
  decide

/-- C6, amended: when the first `<` or `>` token stands behind the tokens `pre`
and is followed by a filename that can be opened, the argument list handed to
`execvp` is exactly `pre`, the tokens before the operator in their order; the
operator, the filename and every token after the filename are not passed. -/
theorem C6_argv_is_the_tokens_before_the_operator (fs : FileSys) (pre post : List CStr)
    (op file : CStr)
    (hpre : ∀ tok ∈ pre, tok ≠ "<".toList ∧ tok ≠ ">".toList)
    (hop : op = "<".toList ∨ op = ">".toList)
    (hopen : if op = "<".toList then fs.canRead file = true else fs.canWrite file = true) :
    (execArgsChild fs (pre ++ op :: file :: post)).ending = .execvp pre.head? pre := by
  have h := execArgsChildLoop_ending fs op file post hop hopen pre [] hpre
  simpa [execArgsChild] using h

/-- C6, amended, at the tokens `sort -r > out.txt extra`. -/
theorem C6_argv_is_the_tokens_before_the_operator_witness :
    (∀ tok ∈ ["sort".toList, "-r".toList], tok ≠ "<".toList ∧ tok ≠ ">".toList) ∧
    (execArgsChild allFiles
        (["sort".toList, "-r".toList] ++ ">".toList :: "out.txt".toList :: ["extra".toList])).ending =
      .execvp (some "sort".toList) ["sort".toList, "-r".toList] :=
  ⟨by decide,
   C6_argv_is_the_tokens_before_the_operator allFiles ["sort".toList, "-r".toList]
     ["extra".toList] ">".toList "out.txt".toList (by decide) (by decide) (by decide)⟩

/-- C10, the claim as stated fails: for the tokens `cat < in.txt > out.txt`, with
every file openable, the child has `in.txt` on its standard input but its
standard output is not redirected to `out.txt`: the scan stops at the first
operator. -/
theorem C10_output_is_not_redirected :
    execArgsChild allFiles
        ["cat".toList, "<".toList, "in.txt".toList, ">".toList, "out.txt".toList] =
      ⟨some "in.txt".toList, none, .execvp (some "cat".toList) ["cat".toList]⟩ ∧
    (execArgsChild allFiles
        ["cat".toList, "<".toList, "in.txt".toList, ">".toList, "out.txt".toList]).stdout ≠
      some "out.txt".toList := by
  decide

/-- C10, amended: for the tokens `prog < f > g`, where `prog` is not itself an
operator and `f` can be opened for reading, the child has its standard input
redirected to `f`, keeps the standard output it inherited (`g` is not opened),
and calls `execvp` with the argument list `[prog]`, which holds none of the
four tokens behind `prog`. -/
theorem C10_only_the_input_is_redirected (fs : FileSys) (prog f g : CStr)
    (hprog : prog ≠ "<".toList ∧ prog ≠ ">".toList) (hf : fs.canRead f = true) :
    execArgsChild fs [prog, "<".toList, f, ">".toList, g] =
      ⟨some f, none, .execvp (some prog) [prog]⟩ := by
  rw [execArgsChild, execArgsChildLoop, if_neg hprog.1, if_neg hprog.2]
  simp [execArgsChildLoop, hf]

/-- C10, amended, at the tokens `cat < in.txt > out.txt`. -/
theorem C10_only_the_input_is_redirected_witness :
    ("cat".toList ≠ "<".toList ∧ "cat".toList ≠ ">".toList) ∧
    execArgsChild allFiles
        ["cat".toList, "<".toList, "in.txt".toList, ">".toList, "out.txt".toList] =
      ⟨some "in.txt".toList, none, .execvp (some "cat".toList) ["cat".toList]⟩ :=
  ⟨by decide,
   C10_only_the_input_is_redirected allFiles "cat".toList "in.txt".toList "out.txt".toList
     (by decide) rfl⟩

/-! ## Scanning lemmas for the tokenizer -/

theorem splitAtFirst_of_not_mem (c : Char) (s : CStr) (h : c ∉ s) : splitAtFirst c s = none := by
  induction s with
  | nil => rfl
  | cons d s ih =>
    have hd : d ≠ c := fun e => h (e ▸ List.mem_cons_self _ _)
    have hs : c ∉ s := fun hm => h (List.mem_cons_of_mem _ hm)
    simp [splitAtFirst, hd, ih hs]

theorem splitAtFirst_append (c : Char) (s t : CStr) (h : c ∉ s) :
    splitAtFirst c (s ++ c :: t) = some (s, t) := by
  induction s with
  | nil => simp [splitAtFirst]
  | cons d s ih =>
    have hd : d ≠ c := fun e => h (e ▸ List.mem_cons_self _ _)
    have hs : c ∉ s := fun hm => h (List.mem_cons_of_mem _ hm)
    simp [splitAtFirst, hd, ih hs]

/-- Outside a quoted region the scan passes a word (no space, no comma) and
stops at the space behind it. -/
theorem scanToken_word (w rest : CStr) (hw : ∀ c ∈ w, c ≠ ' ' ∧ c ≠ ',') :
    ∀ (prev : Char), scanToken prev false (w ++ ' ' :: rest) = (w, ' ' :: rest, false) := by
  induction w with
  | nil => intro prev; simp [scanToken]
  | cons c w ih =>
    intro prev
    have hc := hw c (List.mem_cons_self _ _)
    have hrest : ∀ d ∈ w, d ≠ ' ' ∧ d ≠ ',' := fun d hd => hw d (List.mem_cons_of_mem _ hd)
    simp [scanToken, hc.1, hc.2, ih hrest c]

/-- Outside a quoted region the scan passes a word that ends the string. -/
theorem scanToken_word_end (w : CStr) (hw : ∀ c ∈ w, c ≠ ' ' ∧ c ≠ ',') :
    ∀ (prev : Char), scanToken prev false w = (w, [], false) := by
  induction w with
  | nil => intro prev; simp [scanToken]
  | cons c w ih =>
    intro prev
    have hc := hw c (List.mem_cons_self _ _)
    have hrest : ∀ d ∈ w, d ≠ ' ' ∧ d ≠ ',' := fun d hd => hw d (List.mem_cons_of_mem _ hd)
    simp [scanToken, hc.1, hc.2, ih hrest c]

/-- Inside a quoted region the scan passes every character of a text without
double quote, spaces and commas included, and stays inside the region. -/
theorem scanToken_quoted (t rest : CStr) (ht : '"' ∉ t) :
    ∀ (prev : Char),
      scanToken prev true (t ++ rest) =
        (t ++ (scanToken ((prev :: t).getLast (List.cons_ne_nil _ _)) true rest).1,
         (scanToken ((prev :: t).getLast (List.cons_ne_nil _ _)) true rest).2.1,
         (scanToken ((prev :: t).getLast (List.cons_ne_nil _ _)) true rest).2.2) := by
  induction t with
  | nil => intro prev; simp
  | cons c t ih =>
    intro prev
    have hc : c ≠ '"' := fun e => ht (e ▸ List.mem_cons_self _ _)
    have hrest : '"' ∉ t := fun hm => ht (List.mem_cons_of_mem _ hm)
    have h := ih hrest c
    simp only [List.cons_append, scanToken, hc, false_and, if_false, or_true, if_true]
    have h2 : scanToken c true (t.append rest) = scanToken c true (t ++ rest) := rfl
    rw [h2, h]
    simp [List.getLast_cons (List.cons_ne_nil c t)]

theorem scanToken_closing (prev : Char) :
    (scanToken prev true ['"']).1 = ['"'] ∧ (scanToken prev true ['"']).2.1 = [] := by
  simp [scanToken]

theorem skipSpaces_ne_nil (str : CStr) (h : skipSpaces str ≠ []) : str ≠ [] := by
  intro e
  subst e
  exact h rfl

/-- One iteration of the outer loop on a word that is followed by a space. -/
theorem parseSpaceLoop_word_step (fuel : Nat) (str w rest : CStr)
    (hw : ∀ c ∈ w, c ≠ ' ' ∧ c ≠ ',') (hq : w.head? ≠ some '"') (hne : w ≠ [])
    (hs : skipSpaces str = w ++ ' ' :: rest) :
    parseSpaceLoop (fuel + 1) false str =
      (parseSpaceLoop fuel false (' ' :: rest)).andThen fun toks => .ok (w :: toks) := by
  have hstr : str ≠ [] := skipSpaces_ne_nil str (by rw [hs]; simp)
  obtain ⟨x, xs, rfl⟩ := List.exists_cons_of_ne_nil hstr
  obtain ⟨c, w1, rfl⟩ := List.exists_cons_of_ne_nil hne
  have hc : c ≠ '"' := fun e => hq (by simp [e])
  have hscan := scanToken_word (c :: w1) rest hw ' '
  rw [parseSpaceLoop, hs]
  simp only [List.cons_append, if_neg hc] at hscan ⊢
  rw [hscan]

/-- One iteration of the outer loop on a word that ends the string. -/
theorem parseSpaceLoop_word_last (fuel : Nat) (str w : CStr)
    (hw : ∀ c ∈ w, c ≠ ' ' ∧ c ≠ ',') (hq : w.head? ≠ some '"') (hne : w ≠ [])
    (hs : skipSpaces str = w) :
    parseSpaceLoop (fuel + 2) false str = .ok [w] := by
  have hstr : str ≠ [] := skipSpaces_ne_nil str (by rw [hs]; exact hne)
  obtain ⟨x, xs, rfl⟩ := List.exists_cons_of_ne_nil hstr
  obtain ⟨c, w1, rfl⟩ := List.exists_cons_of_ne_nil hne
  have hc : c ≠ '"' := fun e => hq (by simp [e])
  have hscan := scanToken_word_end (c :: w1) hw ' '
  rw [parseSpaceLoop, hs]
  simp only [if_neg hc]
  rw [hscan]
  rfl

/-- One iteration of the outer loop on a token that opens with a quote and
whose scan runs to the end of the string. -/
theorem parseSpaceLoop_quoted_last (fuel : Nat) (in_quote : Bool) (str body : CStr)
    (hs : skipSpaces str = '"' :: body)
    (h1 : (scanToken '"' true body).2.1 = []) (h2 : (scanToken '"' true body).1 ≠ []) :
    parseSpaceLoop (fuel + 2) in_quote str = .ok [(scanToken '"' true body).1.dropLast] := by
  have hstr : str ≠ [] := skipSpaces_ne_nil str (by rw [hs]; simp)
  obtain ⟨x, xs, rfl⟩ := List.exists_cons_of_ne_nil hstr
  obtain ⟨d, ds, hd⟩ := List.exists_cons_of_ne_nil h2
  rw [parseSpaceLoop, hs]
  simp only [if_true]
  rw [h1, hd]
  rfl

theorem skipSpaces_word (w rest : CStr) (hw : ∀ c ∈ w, c ≠ ' ' ∧ c ≠ ',') (hne : w ≠ []) :
    skipSpaces (w ++ rest) = w ++ rest := by
  obtain ⟨c, w1, rfl⟩ := List.exists_cons_of_ne_nil hne
  have hc := (hw c (List.mem_cons_self _ _)).1
  simp [skipSpaces, hc]

/-- Inside a quoted region, a text without double quote and the quote behind
it are passed in one scan that then stands at the end behind that quote. -/
theorem scanToken_quoted_closed (t : CStr) (ht : '"' ∉ t) (prev : Char) :
    (scanToken prev true (t ++ ['"'])).1 = t ++ ['"'] ∧
    (scanToken prev true (t ++ ['"'])).2.1 = [] := by
  rw [scanToken_quoted t ['"'] ht prev]
  have h := scanToken_closing ((prev :: t).getLast (List.cons_ne_nil _ _))
  exact ⟨by simp [h.1], h.2⟩

/-- Inside a quoted region, a text without double quote that ends the string
is passed whole: the scan stands at the end with the region still open. -/
theorem scanToken_unterminated (t : CStr) (ht : '"' ∉ t) (prev : Char) :
    scanToken prev true t = (t, [], true) := by
  have h := scanToken_quoted t [] ht prev
  simpa [scanToken] using h

/-- C12: for a non-empty word `w` without space, comma or double quote and a
text `s` without double quote, the tokenizer returns (with fuel 3 or more) on
`w "s"` exactly the two tokens `w` and `s`; spaces and commas inside `s` are
kept and the quotes around it are not part of the token. -/
theorem C12_quoted_token_keeps_separators (fuel : Nat) (w s : CStr)
    (hw : ∀ c ∈ w, c ≠ ' ' ∧ c ≠ ',' ∧ c ≠ '"') (hne : w ≠ []) (hs : '"' ∉ s) :
    parseSpace (fuel + 3) (w ++ ' ' :: '"' :: (s ++ ['"'])) = .ok [w, s] := by
  have hw2 : ∀ c ∈ w, c ≠ ' ' ∧ c ≠ ',' := fun c hc => ⟨(hw c hc).1, (hw c hc).2.1⟩
  have hq : w.head? ≠ some '"' := by
    intro e
    have hm := List.mem_of_mem_head? e
    exact (hw _ hm).2.2 rfl
  have h1 := parseSpaceLoop_word_step (fuel + 2) (w ++ ' ' :: '"' :: (s ++ ['"'])) w
    ('"' :: (s ++ ['"'])) hw2 hq hne (skipSpaces_word w _ hw2 hne)
  have hsc := scanToken_quoted_closed s hs '"'
  have h2 := parseSpaceLoop_quoted_last fuel false (' ' :: '"' :: (s ++ ['"'])) (s ++ ['"'])
    (by simp [skipSpaces]) hsc.2 (by rw [hsc.1]; simp)
  rw [hsc.1] at h2
  simp only [List.dropLast_concat] at h2
  rw [parseSpace, h1, h2]
  rfl

/-- C12 at the command `echo "a b"`. -/
theorem C12_quoted_token_keeps_separators_witness :
    parseSpace 3 ("echo".toList ++ ' ' :: '"' :: ("a b".toList ++ ['"'])) =
      .ok ["echo".toList, "a b".toList] :=
  C12_quoted_token_keeps_separators 0 "echo".toList "a b".toList (by decide) (by decide)
    (by decide)

/-- For a non-empty text without double quote behind an opening quote, the
tokenizer returns one token: the text without its last character. -/
theorem parseSpace_unterminated (fuel : Nat) (s : CStr) (hs : '"' ∉ s) (hne : s ≠ []) :
    parseSpace (fuel + 2) ('"' :: s) = .ok [s.dropLast] := by
  have hsc := scanToken_unterminated s hs '"'
  have h := parseSpaceLoop_quoted_last fuel false ('"' :: s) s (by simp [skipSpaces])
    (by rw [hsc]) (by rw [hsc]; exact hne)
  rw [hsc] at h
  exact h

/-- C18, evaluated on the code: on the string made of an opening quote and
`abc` the tokenizer returns the token `ab`, not the whole remainder `abc`: the
copy leaves out the last character as if it were a closing quote; and on the
string made of one quote alone the copy length is `-1`, undefined behaviour.
For every non-empty remainder without double quote the token is the remainder
without its last character. -/
theorem C18_unterminated_quote_loses_last_character :
    parseSpace 8 "\"abc".toList = .ok ["ab".toList] ∧
    (∀ (fuel : Nat), parseSpace (fuel + 1) "\"".toList = .fault .negativeLength) ∧
    ∀ (fuel : Nat) (s : CStr), '"' ∉ s → s ≠ [] →
      parseSpace (fuel + 2) ('"' :: s) = .ok [s.dropLast] :=
  ⟨by decide, fun _ => rfl, parseSpace_unterminated⟩

/-- C20: for texts `u` and `v` without double quote, the tokenizer returns (with
fuel 2 or more) on the string made of a quote, `u`, a backslash, a quote, `v`
and a closing quote exactly one token, made of `u`, the backslash, the quote
and `v`: the quote behind the backslash does not close the region and both
characters stay in the token. -/
theorem C20_escaped_quote_is_kept (fuel : Nat) (u v : CStr) (hu : '"' ∉ u) (hv : '"' ∉ v) :
    parseSpace (fuel + 2) ('"' :: (u ++ '\\' :: '"' :: (v ++ ['"']))) =
      .ok [u ++ '\\' :: '"' :: v] := by
  have hv2 := scanToken_quoted_closed v hv '"'
  have hmid : ∀ (prev : Char),
      (scanToken prev true ('\\' :: '"' :: (v ++ ['"']))).1 = '\\' :: '"' :: (v ++ ['"']) ∧
      (scanToken prev true ('\\' :: '"' :: (v ++ ['"']))).2.1 = [] := by
    intro prev
    have hb : ¬ ('\\' = '"') := by decide
    simp only [scanToken, hb, false_and, if_false, or_true, if_true, ne_eq, not_true_eq_false,
      and_false]
    exact ⟨by rw [hv2.1], hv2.2⟩
  have hall := scanToken_quoted u ('\\' :: '"' :: (v ++ ['"'])) hu '"'
  have hm := hmid ((('"' : Char) :: u).getLast (List.cons_ne_nil _ _))
  have h := parseSpaceLoop_quoted_last fuel false ('"' :: (u ++ '\\' :: '"' :: (v ++ ['"'])))
    (u ++ '\\' :: '"' :: (v ++ ['"'])) (by simp [skipSpaces])
    (by rw [hall]; exact hm.2) (by rw [hall]; simp [hm.1])
  rw [hall] at h
  simp only [hm.1] at h
  rw [parseSpace, h]
  have e : u ++ '\\' :: '"' :: (v ++ ['"']) = (u ++ '\\' :: '"' :: v) ++ ['"'] := by simp
  rw [e, List.dropLast_concat]

/-- C20 at the string `"a\"b"`. -/
theorem C20_escaped_quote_is_kept_witness :
    parseSpace 2 ('"' :: ("a".toList ++ '\\' :: '"' :: ("b".toList ++ ['"']))) =
      .ok ["a".toList ++ '\\' :: '"' :: "b".toList] :=
  C20_escaped_quote_is_kept 0 "a".toList "b".toList (by decide) (by decide)

/-! ## The classifier on well-formed commands -/

theorem getLast?_append_cons (x v : CStr) (c : Char) :
    (x ++ c :: v).getLast? = some (v.getLast?.getD c) := by
  simp [List.getLast?_append, List.getLast?_cons]

/-- Two words separated by one space are returned as two tokens. -/
theorem parseSpace_two_words (fuel : Nat) (w1 w2 : CStr)
    (h1 : ∀ c ∈ w1, c ≠ ' ' ∧ c ≠ ',') (q1 : w1.head? ≠ some '"') (n1 : w1 ≠ [])
    (h2 : ∀ c ∈ w2, c ≠ ' ' ∧ c ≠ ',') (q2 : w2.head? ≠ some '"') (n2 : w2 ≠ []) :
    parseSpace (fuel + 3) (w1 ++ ' ' :: w2) = .ok [w1, w2] := by
  have s1 := parseSpaceLoop_word_step (fuel + 2) (w1 ++ ' ' :: w2) w1 w2 h1 q1 n1
    (skipSpaces_word w1 _ h1 n1)
  have hsk : skipSpaces (' ' :: w2) = w2 := by
    have h := skipSpaces_word w2 [] h2 n2
    simp only [List.append_nil] at h
    simp [skipSpaces, h]
  have s2 := parseSpaceLoop_word_last fuel (' ' :: w2) w2 h2 q2 n2 hsk
  rw [parseSpace, s1, s2]
  rfl

/-- A command that is not empty, does not end with the marker, is not `exit`
and has no pipe character is tokenized whole and then dispatched. -/
theorem processString_single (fuel : Nat) (a : Args) (sh : Shell) (h1 : a.str ≠ [])
    (h2 : a.str.getLast? ≠ some '#') (h3 : a.str ≠ "exit".toList) (h4 : '|' ∉ a.str) :
    processString fuel a sh =
      (parseSpace fuel a.str).andThen fun parsed => dispatch false { a with parsed := parsed } sh := by
  simp only [processString, h1, h2, h3, if_false, splitAtFirst_of_not_mem _ _ h4]

/-- The set built-in on an assignment token `name=value` whose value does not
open with a quote, within the bounds of the node: the value is stored under
the name as it stands. -/
theorem setEnvVar_assign (p0 name value : CStr) (rest : List CStr) (sh : Shell)
    (hn : '=' ∉ name) (hv : value.head? ≠ some '"')
    (hnl : name.length < MAX_ENV_VAR_LEN) (hvl : value.length < MAX_ENV_VAL_LEN) :
    setEnvVar (p0 :: (name ++ '=' :: value) :: rest) sh =
      .ok (p0 :: name :: rest,
       { sh with hashTable := linkNode sh.hashTable (hashFunction name) ⟨name, value⟩ }) := by
  have hsplit := splitAtFirst_append '=' name value hn
  simp only [setEnvVar, List.getElem?_cons_succ, List.getElem?_cons_zero, hsplit, hv, false_and,
    if_false, List.set_cons_succ, List.set_cons_zero, insert_ok _ name value hnl hvl,
    Run.andThen]

/-- Classifying `set name=value` for a name without `=` and word-shaped name
and value: code 0 and the value stored under the name. -/
theorem processString_set (fuel : Nat) (name value : CStr) (parsed parsedpipe : List CStr)
    (background : Bool) (sh : Shell)
    (hname : ∀ c ∈ name, c ≠ ' ' ∧ c ≠ ',' ∧ c ≠ '"' ∧ c ≠ '|' ∧ c ≠ '=')
    (hvalue : ∀ c ∈ value, c ≠ ' ' ∧ c ≠ ',' ∧ c ≠ '"' ∧ c ≠ '|')
    (hvh : value.getLast? ≠ some '#')
    (hnl : name.length < MAX_ENV_VAR_LEN) (hvl : value.length < MAX_ENV_VAL_LEN) :
    processString (fuel + 3)
        ⟨"set".toList ++ ' ' :: (name ++ '=' :: value), parsed, parsedpipe, background⟩ sh =
      .ok (0,
        ⟨"set".toList ++ ' ' :: (name ++ '=' :: value), ["set".toList, name], parsedpipe,
          background⟩,
        { sh with hashTable := linkNode sh.hashTable (hashFunction name) ⟨name, value⟩ }) := by
  have hw2 : ∀ c ∈ name ++ '=' :: value, c ≠ ' ' ∧ c ≠ ',' := by
    intro c hc
    rcases List.mem_append.mp hc with h | h
    · exact ⟨(hname c h).1, (hname c h).2.1⟩
    · rcases List.mem_cons.mp h with h | h
      · subst h; decide
      · exact ⟨(hvalue c h).1, (hvalue c h).2.1⟩
  have hq2 : (name ++ '=' :: value).head? ≠ some '"' := by
    intro e
    have hm := List.mem_of_mem_head? e
    rcases List.mem_append.mp hm with h | h
    · exact (hname _ h).2.2.1 rfl
    · rcases List.mem_cons.mp h with h | h
      · exact absurd h (by decide)
      · exact (hvalue _ h).2.2.1 rfl
  have hn2 : name ++ '=' :: value ≠ [] := by simp
  have hlast : ("set".toList ++ ' ' :: (name ++ '=' :: value)).getLast? ≠ some '#' := by
    have e : "set".toList ++ ' ' :: (name ++ '=' :: value) =
        ("set".toList ++ ' ' :: name) ++ '=' :: value := by simp
    rw [e, getLast?_append_cons]
    cases hv : value.getLast? with
    | none => decide
    | some x =>
      rw [hv] at hvh
      simpa using hvh
  have hexit : "set".toList ++ ' ' :: (name ++ '=' :: value) ≠ "exit".toList := by
    intro e
    have h : some 's' = some 'e' := congrArg List.head? e
    exact absurd h (by decide)
  have hpipe : '|' ∉ "set".toList ++ ' ' :: (name ++ '=' :: value) := by
    intro hm
    rcases List.mem_append.mp hm with h | h
    · exact absurd h (by decide)
    · rcases List.mem_cons.mp h with h | h
      · exact absurd h (by decide)
      · rcases List.mem_append.mp h with h | h
        · exact (hname _ h).2.2.2.1 rfl
        · rcases List.mem_cons.mp h with h | h
          · exact absurd h (by decide)
          · exact (hvalue _ h).2.2.2 rfl
  have htok := parseSpace_two_words fuel "set".toList (name ++ '=' :: value) (by decide)
    (by decide) (by decide) hw2 hq2 hn2
  have hneq : '=' ∉ name := fun hm => (hname _ hm).2.2.2.2 rfl
  have hvq : value.head? ≠ some '"' := by
    intro e
    exact (hvalue _ (List.mem_of_mem_head? e)).2.2.1 rfl
  rw [processString_single _ _ _ (by simp) hlast hexit hpipe]
  simp only [htok, Run.andThen, dispatch]
  have hs : strncmpEq "set".toList "set".toList 3 = true := by decide
  rw [if_pos hs, setEnvVar_assign _ _ _ _ _ hneq hvq hnl hvl]

theorem getEnvVar_found (p0 name value : CStr) (rest : List CStr) (sh : Shell)
    (hq : name ≠ "?".toList) (h : searchInHashTable sh.hashTable name = some value) :
    getEnvVar (p0 :: name :: rest) sh =
      .ok { sh with stdout := sh.stdout ++ value ++ "\n".toList } := by
  simp only [getEnvVar, List.getElem?_cons_succ, List.getElem?_cons_zero, if_neg hq, h]

theorem getEnvVar_absent (p0 name : CStr) (rest : List CStr) (sh : Shell)
    (hq : name ≠ "?".toList) (h : searchInHashTable sh.hashTable name = none) :
    getEnvVar (p0 :: name :: rest) sh =
      .ok { sh with stdout := sh.stdout ++ "Variable not found\n".toList } := by
  simp only [getEnvVar, List.getElem?_cons_succ, List.getElem?_cons_zero, if_neg hq, h]

theorem getEnvVar_status (p0 : CStr) (rest : List CStr) (sh : Shell) :
    getEnvVar (p0 :: "?".toList :: rest) sh =
      .ok { sh with stdout := sh.stdout ++ printInt sh.last_exit_status ++ "\n".toList } := by
  simp only [getEnvVar, List.getElem?_cons_succ, List.getElem?_cons_zero, if_true]

/-- Classifying `get name` for a word-shaped name: the get built-in runs on the
tokens `get`, `name` and the code is 0. -/
theorem processString_get (fuel : Nat) (name : CStr) (parsed parsedpipe : List CStr)
    (background : Bool) (sh : Shell)
    (hname : ∀ c ∈ name, c ≠ ' ' ∧ c ≠ ',' ∧ c ≠ '"' ∧ c ≠ '|')
    (hne : name ≠ []) (hnh : name.getLast? ≠ some '#') :
    processString (fuel + 3) ⟨"get".toList ++ ' ' :: name, parsed, parsedpipe, background⟩ sh =
      (getEnvVar ["get".toList, name] sh).andThen fun sh1 =>
        .ok (0, ⟨"get".toList ++ ' ' :: name, ["get".toList, name], parsedpipe, background⟩,
          sh1) := by
  have hw2 : ∀ c ∈ name, c ≠ ' ' ∧ c ≠ ',' := fun c hc => ⟨(hname c hc).1, (hname c hc).2.1⟩
  have hq2 : name.head? ≠ some '"' := by
    intro e
    exact (hname _ (List.mem_of_mem_head? e)).2.2.1 rfl
  have hlast : ("get".toList ++ ' ' :: name).getLast? ≠ some '#' := by
    rw [List.getLast?_append]
    obtain ⟨c, w, rfl⟩ := List.exists_cons_of_ne_nil hne
    rw [List.getLast?_cons_cons]
    cases hv : (c :: w).getLast? with
    | none => simp at hv
    | some x =>
      rw [hv] at hnh
      simpa using hnh
  have hexit : "get".toList ++ ' ' :: name ≠ "exit".toList := by
    intro e
    have h : some 'g' = some 'e' := congrArg List.head? e
    exact absurd h (by decide)
  have hpipe : '|' ∉ "get".toList ++ ' ' :: name := by
    intro hm
    rcases List.mem_append.mp hm with h | h
    · exact absurd h (by decide)
    · rcases List.mem_cons.mp h with h | h
      · exact absurd h (by decide)
      · exact (hname _ h).2.2.2 rfl
  have htok := parseSpace_two_words fuel "get".toList name (by decide) (by decide) (by decide)
    hw2 hq2 hne
  rw [processString_single _ _ _ (by simp) hlast hexit hpipe]
  simp only [htok, Run.andThen, dispatch]
  have hs : strncmpEq "get".toList "set".toList 3 = false := by decide
  have hg : strncmpEq "get".toList "get".toList 3 = true := by decide
  simp only [hs, hg, if_true, Bool.false_eq_true, if_false]

/-- C11: for a non-empty name other than `?` of at most 16 characters and a
value of at most 240 characters that are single unquoted words (no space,
comma, double quote or `|`, no `=` in the name, no trailing `#`), with the
name not yet in the store, classifying `set name=value` (fuel 3 or more)
returns 0 and leaves the store as `insertIntoHashTable(name, value)` returns
it, with the value stored under the name, and classifying `get name`
afterwards returns 0 and prints exactly the value and a newline. -/
theorem C11_set_then_get_round_trip (fuel : Nat) (name value : CStr)
    (parsed parsedpipe : List CStr) (background : Bool) (sh : Shell)
    (hname : ∀ c ∈ name, c ≠ ' ' ∧ c ≠ ',' ∧ c ≠ '"' ∧ c ≠ '|' ∧ c ≠ '=')
    (hne : name ≠ []) (hq : name ≠ "?".toList) (hnh : name.getLast? ≠ some '#')
    (hvalue : ∀ c ∈ value, c ≠ ' ' ∧ c ≠ ',' ∧ c ≠ '"' ∧ c ≠ '|')
    (hvh : value.getLast? ≠ some '#')
    (hnl : name.length ≤ 16) (hvl : value.length ≤ 240)
    (habsent : searchInHashTable sh.hashTable name = none) :
    ∃ t1, insertIntoHashTable sh.hashTable name value = .ok t1 ∧
      processString (fuel + 3)
          ⟨"set".toList ++ ' ' :: (name ++ '=' :: value), parsed, parsedpipe, background⟩ sh =
        .ok (0,
          ⟨"set".toList ++ ' ' :: (name ++ '=' :: value), ["set".toList, name], parsedpipe,
            background⟩,
          { sh with hashTable := t1 }) ∧
      searchInHashTable t1 name = some value ∧
      processString (fuel + 3)
          ⟨"get".toList ++ ' ' :: name, ["set".toList, name], parsedpipe, background⟩
          { sh with hashTable := t1 } =
        .ok (0, ⟨"get".toList ++ ' ' :: name, ["get".toList, name], parsedpipe, background⟩,
          { sh with hashTable := t1, stdout := sh.stdout ++ value ++ "\n".toList }) := by
  have hnl2 : name.length < MAX_ENV_VAR_LEN := by simp only [MAX_ENV_VAR_LEN]; omega
  have hvl2 : value.length < MAX_ENV_VAL_LEN := by simp only [MAX_ENV_VAL_LEN]; omega
  have hstored : searchInHashTable (linkNode sh.hashTable (hashFunction name) ⟨name, value⟩)
      name = some value := by
    rw [search_link_same, habsent]
  refine ⟨_, insert_ok sh.hashTable name value hnl2 hvl2,
    processString_set fuel name value parsed parsedpipe background sh hname hvalue hvh hnl2 hvl2,
    hstored, ?_⟩
  rw [processString_get fuel name _ _ _ _
    (fun c hc => ⟨(hname c hc).1, (hname c hc).2.1, (hname c hc).2.2.1, (hname c hc).2.2.2.1⟩)
    hne hnh]
  rw [getEnvVar_found _ _ value _ _ hq hstored]
  rfl

/-- C11 at the commands `set x=5` and `get x` on the initial shell. -/
theorem C11_set_then_get_round_trip_witness :
    ∃ t1, insertIntoHashTable initialShell.hashTable "x".toList "5".toList = .ok t1 ∧
      processString 3 ⟨"set".toList ++ ' ' :: ("x".toList ++ '=' :: "5".toList), [], [], false⟩
          initialShell =
        .ok (0, ⟨"set".toList ++ ' ' :: ("x".toList ++ '=' :: "5".toList),
              ["set".toList, "x".toList], [], false⟩,
          { initialShell with hashTable := t1 }) ∧
      searchInHashTable t1 "x".toList = some "5".toList ∧
      processString 3 ⟨"get".toList ++ ' ' :: "x".toList, ["set".toList, "x".toList], [], false⟩
          { initialShell with hashTable := t1 } =
        .ok (0, ⟨"get".toList ++ ' ' :: "x".toList, ["get".toList, "x".toList], [], false⟩,
          { initialShell with
            hashTable := t1, stdout := initialShell.stdout ++ "5".toList ++ "\n".toList }) :=
  C11_set_then_get_round_trip 0 "x".toList "5".toList [] [] false initialShell (by decide)
    (by decide) (by decide) (by decide) (by decide) (by decide) (by decide) (by decide)
    (by decide)

/-! ## Lookup of absent names, malformed `set` -/

/-- Insertions within the bounds of the node all return, and a name that is
not among the inserted ones and was not found before is not found after. -/
theorem search_insertAllFrom_absent (name : CStr) (ins : List (CStr × CStr)) :
    ∀ (t : HashTable),
      (∀ p ∈ ins, p.1.length < MAX_ENV_VAR_LEN ∧ p.2.length < MAX_ENV_VAL_LEN) →
      name ∉ ins.map Prod.fst → searchInHashTable t name = none →
      ∃ t1, insertAllFrom t ins = .ok t1 ∧ searchInHashTable t1 name = none := by
  induction ins with
  | nil => intro t _ _ h; exact ⟨t, rfl, h⟩
  | cons p ins ih =>
    intro t hb hn h
    have hp : p.1 ≠ name := fun e => hn (by simp [e])
    have hrest : name ∉ ins.map Prod.fst := fun hm => hn (by simp at hm ⊢; exact Or.inr hm)
    have hbp := hb p (List.mem_cons_self _ _)
    have hbrest : ∀ q ∈ ins, q.1.length < MAX_ENV_VAR_LEN ∧ q.2.length < MAX_ENV_VAL_LEN :=
      fun q hq => hb q (List.mem_cons_of_mem _ hq)
    obtain ⟨t1, h1, h2⟩ := ih (linkNode t (hashFunction p.1) ⟨p.1, p.2⟩) hbrest hrest
      (by rw [search_link_other _ _ _ _ _ hp]; exact h)
    refine ⟨t1, ?_, h2⟩
    simp only [insertAllFrom, insert_ok t p.1 p.2 hbp.1 hbp.2, Run.andThen]
    exact h1

/-- In a store built by insertions within the bounds of the node, a name that
was never inserted is not found, whatever the bucket it hashes to holds. -/
theorem search_insertAll_absent (ins : List (CStr × CStr)) (name : CStr)
    (hb : ∀ p ∈ ins, p.1.length < MAX_ENV_VAR_LEN ∧ p.2.length < MAX_ENV_VAL_LEN)
    (h : name ∉ ins.map Prod.fst) :
    ∃ t, insertAll ins = .ok t ∧ searchInHashTable t name = none :=
  search_insertAllFrom_absent name ins emptyTable hb h rfl

/-- The tail of `processString` on tokens `get`, `name`: the get built-in runs
and the code is 0. -/
theorem dispatch_get (piped : Bool) (a : Args) (sh : Shell) (name : CStr) (rest : List CStr)
    (h : a.parsed = "get".toList :: name :: rest) :
    dispatch piped a sh =
      (getEnvVar ("get".toList :: name :: rest) sh).andThen fun sh1 => .ok (0, a, sh1) := by
  have hs : strncmpEq "get".toList "set".toList 3 = false := by decide
  have hg : strncmpEq "get".toList "get".toList 3 = true := by decide
  simp only [dispatch, h, hs, hg, if_true, Bool.false_eq_true, if_false]

/-- C13, the claim as stated fails, twice. The name `?` was never inserted
into the initial store, yet `get ?` does not print `Variable not found`: it
prints the last exit status, `0`. And after the one insertion of the
17-character name `abcdefghijklmnopq` with the value `9`, whose copy runs over
the array `name` of the node, the never-inserted name `abcdefghijklmnopq9` is
looked up with the result `9`, not NULL; an insertion of a value of 241
characters writes behind the node and reaches no store state at all. -/
theorem C13_question_mark_is_not_looked_up :
    ("?".toList ∉ ([] : List (CStr × CStr)).map Prod.fst) ∧
    insertAll [] = .ok initialShell.hashTable ∧
    (processString 8 ⟨"get ?".toList, [], [], false⟩ initialShell).result.map
      (fun r => (r.1, r.2.2.stdout)) = some (0, "0\n".toList) ∧
    (processString 8 ⟨"get ?".toList, [], [], false⟩ initialShell).result.map
      (fun r => (r.1, r.2.2.stdout)) ≠ some (0, "Variable not found\n".toList) ∧
    ("abcdefghijklmnopq9".toList ∉ [("abcdefghijklmnopq".toList, "9".toList)].map Prod.fst) ∧
    (insertAll [("abcdefghijklmnopq".toList, "9".toList)]).result.map
      (fun t => searchInHashTable t "abcdefghijklmnopq9".toList) = some (some "9".toList) ∧
    insertAll [("n".toList, List.replicate 241 'v')] = .fault .bufferOverflow := by
  refine ⟨by decide, rfl, by decide, by decide, by decide, by decide, ?_⟩
  have h : insertIntoHashTable emptyTable "n".toList (List.replicate 241 'v') =
      .fault .bufferOverflow := by
    apply insert_long_value
    rw [List.length_replicate]
    decide
  simp only [insertAll, insertAllFrom, h, Run.andThen]

/-- C13, amended: in every store reached from the empty table by insertions of
names of at most 16 and values of at most 240 characters (the bounds of the
node), a name that was never inserted is looked up with the not-found result
NULL, also when its bucket is not empty; and when that name is not `?`, the
get built-in on the tokens `get`, `name` prints `Variable not found` and the
classifier returns 0, which is what classifying the command `get name` (fuel
3 or more) does when the name is a non-empty word without space, comma,
double quote and `|` that does not end with `#`. -/
theorem C13_absent_name_is_not_found (ins : List (CStr × CStr)) (name : CStr)
    (hb : ∀ p ∈ ins, p.1.length < MAX_ENV_VAR_LEN ∧ p.2.length < MAX_ENV_VAL_LEN)
    (h : name ∉ ins.map Prod.fst) :
    ∃ t, insertAll ins = .ok t ∧
    searchInHashTable t name = none ∧
    (name ≠ "?".toList →
      (∀ (piped : Bool) (a : Args) (sh : Shell) (rest : List CStr),
        sh.hashTable = t → a.parsed = "get".toList :: name :: rest →
        dispatch piped a sh =
          .ok (0, a, { sh with stdout := sh.stdout ++ "Variable not found\n".toList })) ∧
      ((∀ c ∈ name, c ≠ ' ' ∧ c ≠ ',' ∧ c ≠ '"' ∧ c ≠ '|') → name ≠ [] →
        name.getLast? ≠ some '#' →
        ∀ (fuel : Nat) (parsed parsedpipe : List CStr) (background : Bool) (sh : Shell),
          sh.hashTable = t →
          processString (fuel + 3)
              ⟨"get".toList ++ ' ' :: name, parsed, parsedpipe, background⟩ sh =
            .ok (0, ⟨"get".toList ++ ' ' :: name, ["get".toList, name], parsedpipe, background⟩,
              { sh with stdout := sh.stdout ++ "Variable not found\n".toList }))) := by
  obtain ⟨t, ht, habs⟩ := search_insertAll_absent ins name hb h
  refine ⟨t, ht, habs, fun hq => ⟨?_, ?_⟩⟩
  · intro piped a sh rest hsh hp
    rw [dispatch_get piped a sh name rest hp, getEnvVar_absent _ _ _ _ hq (by rw [hsh]; exact habs)]
    rfl
  · intro hname hne hnh fuel parsed parsedpipe background sh hsh
    rw [processString_get fuel name _ _ _ _ hname hne hnh,
      getEnvVar_absent _ _ _ _ hq (by rw [hsh]; exact habs)]
    rfl

/-- C13, amended, at the store holding only `a` and the name `u`, which hashes
to the bucket of `a`: the lookup returns NULL and the command `get u` prints
`Variable not found`. -/
theorem C13_absent_name_is_not_found_witness :
    hashFunction "u".toList = hashFunction "a".toList ∧
    ∃ t, insertAll [("a".toList, "1".toList)] = .ok t ∧
      searchInHashTable t "u".toList = none ∧
      processString 3 ⟨"get".toList ++ ' ' :: "u".toList, [], [], false⟩
          { initialShell with hashTable := t } =
        .ok (0, ⟨"get".toList ++ ' ' :: "u".toList, ["get".toList, "u".toList], [], false⟩,
          { initialShell with
            hashTable := t, stdout := initialShell.stdout ++ "Variable not found\n".toList }) :=
  ⟨by decide,
   (C13_absent_name_is_not_found [("a".toList, "1".toList)] "u".toList (by decide)
      (by decide)).imp fun t ht =>
    ⟨ht.1, ht.2.1,
      (ht.2.2 (by decide)).2 (by decide) (by decide) (by decide) 0 [] [] false
        { initialShell with hashTable := t } rfl⟩⟩

/-- C14: when the first token is `set` and the second token is missing or has
no `=`, the set built-in prints the syntax message on standard error and
changes nothing else (the array, the store and every other part of the shell
state stay as they were), and the classifier returns 0: in its tail that
dispatches on the tokens, and for a whole command without pipe and marker
that has these tokens. -/
theorem C14_malformed_set_changes_nothing (rest : List CStr)
    (hbad : rest = [] ∨ ∃ tok more, rest = tok :: more ∧ '=' ∉ tok) :
    (∀ (sh : Shell),
      setEnvVar ("set".toList :: rest) sh =
        .ok ("set".toList :: rest,
          { sh with stderr := sh.stderr ++ "Invalid syntax for set command\n".toList }) ∧
      (setEnvVar ("set".toList :: rest) sh).result.map (fun r => r.2.hashTable) =
        some sh.hashTable) ∧
    (∀ (piped : Bool) (a : Args) (sh : Shell), a.parsed = "set".toList :: rest →
      dispatch piped a sh =
        .ok (0, a,
          { sh with stderr := sh.stderr ++ "Invalid syntax for set command\n".toList })) ∧
    (∀ (fuel : Nat) (a : Args) (sh : Shell), a.str ≠ [] → a.str.getLast? ≠ some '#' →
      a.str ≠ "exit".toList → '|' ∉ a.str → parseSpace fuel a.str = .ok ("set".toList :: rest) →
      processString fuel a sh =
        .ok (0, { a with parsed := "set".toList :: rest },
          { sh with stderr := sh.stderr ++ "Invalid syntax for set command\n".toList })) := by
  have hset : ∀ (sh : Shell), setEnvVar ("set".toList :: rest) sh =
      .ok ("set".toList :: rest,
        { sh with stderr := sh.stderr ++ "Invalid syntax for set command\n".toList }) := by
    intro sh
    rcases hbad with h | ⟨tok, more, h, hno⟩
    · subst h
      rfl
    · subst h
      simp only [setEnvVar, List.getElem?_cons_succ, List.getElem?_cons_zero,
        splitAtFirst_of_not_mem _ _ hno]
  have hdisp : ∀ (piped : Bool) (a : Args) (sh : Shell), a.parsed = "set".toList :: rest →
      dispatch piped a sh =
        .ok (0, a,
          { sh with stderr := sh.stderr ++ "Invalid syntax for set command\n".toList }) := by
    intro piped a sh hp
    have hs : strncmpEq "set".toList "set".toList 3 = true := by decide
    simp only [dispatch, hp, hs, if_true, hset, Run.andThen]
    rw [← hp]
  refine ⟨fun sh => ⟨hset sh, by rw [hset]; rfl⟩, hdisp, ?_⟩
  intro fuel a sh h1 h2 h3 h4 htok
  rw [processString_single fuel a sh h1 h2 h3 h4, htok]
  exact hdisp false { a with parsed := "set".toList :: rest } sh rfl

/-- C14 at the command `set foo`. -/
theorem C14_malformed_set_changes_nothing_witness :
    processString 8 ⟨"set foo".toList, [], [], false⟩ initialShell =
      .ok (0, ⟨"set foo".toList, ["set".toList, "foo".toList], [], false⟩,
        { initialShell with
          stderr := initialShell.stderr ++ "Invalid syntax for set command\n".toList }) :=
  (C14_malformed_set_changes_nothing ["foo".toList]
    (Or.inr ⟨"foo".toList, [], rfl, by decide⟩)).2.2 8
    ⟨"set foo".toList, [], [], false⟩ initialShell (by decide) (by decide) (by decide)
    (by decide) (by decide)

/-! ## The pipe split -/

/-- A command that does not end with the marker and has a pipe character is
cut at the first one; both parts are tokenized and then dispatched. -/
theorem processString_piped (fuel : Nat) (first second : CStr) (parsed parsedpipe : List CStr)
    (background : Bool) (sh : Shell) (hfirst : '|' ∉ first)
    (hlast : second.getLast? ≠ some '#') :
    processString fuel ⟨first ++ '|' :: second, parsed, parsedpipe, background⟩ sh =
      (parseSpace fuel first).andThen fun p =>
        (parseSpace fuel second).andThen fun pp =>
          dispatch true ⟨first, p, pp, background⟩ sh := by
  have h1 : first ++ '|' :: second ≠ [] := by simp
  have h2 : (first ++ '|' :: second).getLast? ≠ some '#' := by
    rw [getLast?_append_cons]
    cases hv : second.getLast? with
    | none => decide
    | some x =>
      rw [hv] at hlast
      simpa using hlast
  have h3 : first ++ '|' :: second ≠ "exit".toList := by
    intro e
    have hm : '|' ∈ first ++ '|' :: second := by simp
    rw [e] at hm
    exact absurd hm (by decide)
  simp only [processString, h1, h2, h3, if_false, splitAtFirst_append _ _ _ hfirst]

/-- A command that ends with the marker and has a pipe character before it:
the marker is taken off first, then the command is cut at the first pipe character. -/
theorem processString_piped_marker (fuel : Nat) (first second : CStr)
    (parsed parsedpipe : List CStr) (background : Bool) (sh : Shell) (hfirst : '|' ∉ first) :
    processString fuel ⟨first ++ '|' :: (second ++ ['#']), parsed, parsedpipe, background⟩ sh =
      (parseSpace fuel first).andThen fun p =>
        (parseSpace fuel second).andThen fun pp =>
          dispatch true ⟨first, p, pp, true⟩ sh := by
  have e : first ++ '|' :: (second ++ ['#']) = (first ++ '|' :: second) ++ ['#'] := by simp
  have h1 : (first ++ '|' :: second) ++ ['#'] ≠ [] := by simp
  have h2 : ((first ++ '|' :: second) ++ ['#']).getLast? = some '#' :=
    List.getLast?_concat _
  have h3 : first ++ '|' :: second ≠ "exit".toList := by
    intro e
    have hm : '|' ∈ first ++ '|' :: second := by simp
    rw [e] at hm
    exact absurd hm (by decide)
  rw [e]
  simp only [processString, h1, h2, h3, if_false, if_true, List.dropLast_concat,
    splitAtFirst_append _ _ _ hfirst]

/-- C15, the claim as stated fails: for the command `ls|wc#` the secondary
buffer holds the token `wc`, while the tokens of all the text after the first
pipe character, `wc#`, are the one token `wc#`: the marker at the end of the
command is taken off before the command is cut. -/
theorem C15_marker_is_not_in_the_secondary_buffer :
    (processString 8 ⟨"ls|wc#".toList, [], [], false⟩ initialShell).result.map
      (fun r => (r.1, r.2.1.parsed, r.2.1.parsedpipe)) =
      some (2, ["ls".toList], ["wc".toList]) ∧
    splitAtFirst '|' "ls|wc#".toList = some ("ls".toList, "wc#".toList) ∧
    parseSpace 8 "wc#".toList = .ok ["wc#".toList] := by
  decide

/-- C15, amended: let a command be the text `first` without pipe character, a
pipe character and the text `second`, possibly followed by the marker `#` at
its very end. When the tokenizer returns on `first` with a first token that
does not start with `set` or `get`, and returns on `second`, the classifier
returns 2 with the primary buffer holding the tokens of `first` and the
secondary buffer the tokens of `second` (all the text after the first pipe
character, without the marker); a later pipe character stays in `second` and
is tokenized as an ordinary character. -/
theorem C15_split_at_first_pipe (fuel : Nat) (first second : CStr)
    (parsed parsedpipe : List CStr) (background : Bool) (sh : Shell)
    (p0 : CStr) (ps pp : List CStr) (hfirst : '|' ∉ first)
    (hp : parseSpace fuel first = .ok (p0 :: ps))
    (hset : p0.take 3 ≠ "set".toList) (hget : p0.take 3 ≠ "get".toList)
    (hpp : parseSpace fuel second = .ok pp) :
    (second.getLast? ≠ some '#' →
      processString fuel ⟨first ++ '|' :: second, parsed, parsedpipe, background⟩ sh =
        .ok (2, ⟨first, p0 :: ps, pp, background⟩, sh)) ∧
    processString fuel ⟨first ++ '|' :: (second ++ ['#']), parsed, parsedpipe, background⟩ sh =
      .ok (2, ⟨first, p0 :: ps, pp, true⟩, sh) := by
  have hs : strncmpEq p0 "set".toList 3 = false := by
    simp only [strncmpEq, decide_eq_false_iff_not]
    exact hset
  have hg : strncmpEq p0 "get".toList 3 = false := by
    simp only [strncmpEq, decide_eq_false_iff_not]
    exact hget
  have hd : ∀ (b : Bool), dispatch true ⟨first, p0 :: ps, pp, b⟩ sh =
      .ok (2, ⟨first, p0 :: ps, pp, b⟩, sh) := by
    intro b
    simp only [dispatch, hs, hg, Bool.false_eq_true, if_false, if_true]
  constructor
  · intro hlast
    rw [processString_piped fuel first second _ _ _ _ hfirst hlast, hp, hpp]
    exact hd background
  · rw [processString_piped_marker fuel first second _ _ _ _ hfirst, hp, hpp]
    exact hd true

/-- C15, amended, at the command `a|b|c` (and `a|b|c#`): the secondary buffer
holds the one token `b|c`. -/
theorem C15_split_at_first_pipe_witness :
    ("b|c".toList.getLast? ≠ some '#' →
      processString 8 ⟨"a".toList ++ '|' :: "b|c".toList, [], [], false⟩ initialShell =
        .ok (2, ⟨"a".toList, ["a".toList], ["b|c".toList], false⟩, initialShell)) ∧
    processString 8 ⟨"a".toList ++ '|' :: ("b|c".toList ++ ['#']), [], [], false⟩ initialShell =
      .ok (2, ⟨"a".toList, ["a".toList], ["b|c".toList], true⟩, initialShell) :=
  C15_split_at_first_pipe 8 "a".toList "b|c".toList [] [] false initialShell "a".toList []
    ["b|c".toList] (by decide) (by decide) (by decide) (by decide) (by decide)

/-! ## The last exit status -/

theorem andThen_ok {α β : Type} (x : Run α) (k : α → Run β) (b : β)
    (h : x.andThen k = .ok b) : ∃ a, x = .ok a ∧ k a = .ok b := by
  cases x with
  | ok a => exact ⟨a, rfl, h⟩
  | fault f => exact Run.noConfusion h
  | exits c => exact Run.noConfusion h
  | outOfFuel => exact Run.noConfusion h

theorem setEnvVar_frame (parsed : List CStr) (sh : Shell) (r : List CStr × Shell)
    (h : setEnvVar parsed sh = .ok r) :
    ∃ t err, r.2 = { sh with hashTable := t, stderr := err } := by
  unfold setEnvVar at h
  split at h
  · injection h with h
    subst h
    exact ⟨_, _, rfl⟩
  · split at h
    · injection h with h
      subst h
      exact ⟨_, _, rfl⟩
    · obtain ⟨t, _, h⟩ := andThen_ok _ _ _ h
      injection h with h
      subst h
      exact ⟨t, _, rfl⟩

theorem getEnvVar_frame (parsed : List CStr) (sh sh1 : Shell)
    (h : getEnvVar parsed sh = .ok sh1) : ∃ out, sh1 = { sh with stdout := out } := by
  unfold getEnvVar at h
  split at h
  · exact Run.noConfusion h
  · split at h
    · injection h with h; subst h; exact ⟨_, rfl⟩
    · split at h <;> (injection h with h; subst h; exact ⟨_, rfl⟩)

theorem dispatch_frame (piped : Bool) (a : Args) (sh : Shell) (r : Nat × Args × Shell)
    (h : dispatch piped a sh = .ok r) :
    ∃ t out err, r.2.2 = { sh with hashTable := t, stdout := out, stderr := err } := by
  unfold dispatch at h
  split at h
  · exact Run.noConfusion h
  · split at h
    · obtain ⟨r1, h1, h⟩ := andThen_ok _ _ _ h
      injection h with h
      subst h
      obtain ⟨t, err, e⟩ := setEnvVar_frame _ _ _ h1
      exact ⟨t, sh.stdout, err, e⟩
    · split at h
      · obtain ⟨sh1, h1, h⟩ := andThen_ok _ _ _ h
        injection h with h
        subst h
        obtain ⟨out, e⟩ := getEnvVar_frame _ _ _ h1
        exact ⟨sh.hashTable, out, sh.stderr, e⟩
      · injection h with h
        subst h
        exact ⟨_, _, _, rfl⟩

theorem processString_tail_frame (fuel : Nat) (a1 : Args) (sh : Shell)
    (r : Nat × Args × Shell)
    (h : (if a1.str = "exit".toList then Run.exits 0
      else
        match splitAtFirst '|' a1.str with
        | some (first, second) =>
          (parseSpace fuel first).andThen fun parsed =>
            (parseSpace fuel second).andThen fun parsedpipe =>
              dispatch true { a1 with str := first, parsed := parsed, parsedpipe := parsedpipe } sh
        | none =>
          (parseSpace fuel a1.str).andThen fun parsed =>
            dispatch false { a1 with parsed := parsed } sh) = .ok r) :
    ∃ t out err, r.2.2 = { sh with hashTable := t, stdout := out, stderr := err } := by
  split at h
  · exact Run.noConfusion h
  · split at h
    · obtain ⟨p, _, h⟩ := andThen_ok _ _ _ h
      obtain ⟨pp, _, h⟩ := andThen_ok _ _ _ h
      exact dispatch_frame _ _ _ _ h
    · obtain ⟨p, _, h⟩ := andThen_ok _ _ _ h
      exact dispatch_frame _ _ _ _ h

/-- The classifier changes nothing of the shell state but the variable store
and what was printed. -/
theorem processString_frame (fuel : Nat) (a : Args) (sh : Shell)
    (r : Nat × Args × Shell) (h : processString fuel a sh = .ok r) :
    ∃ t out err, r.2.2 = { sh with hashTable := t, stdout := out, stderr := err } := by
  unfold processString at h
  by_cases h0 : a.str = []
  · rw [if_pos h0] at h
    injection h with h
    subst h
    exact ⟨_, _, _, rfl⟩
  · rw [if_neg h0] at h
    exact processString_tail_frame fuel _ sh r h

theorem setEnvVar_last_exit_status (parsed : List CStr) (sh : Shell) (r : List CStr × Shell)
    (h : setEnvVar parsed sh = .ok r) : r.2.last_exit_status = sh.last_exit_status := by
  obtain ⟨t, err, e⟩ := setEnvVar_frame parsed sh r h
  rw [e]

theorem getEnvVar_last_exit_status (parsed : List CStr) (sh sh1 : Shell)
    (h : getEnvVar parsed sh = .ok sh1) : sh1.last_exit_status = sh.last_exit_status := by
  obtain ⟨out, e⟩ := getEnvVar_frame parsed sh sh1 h
  rw [e]

/-- The classifier never changes the last exit status. -/
theorem processString_last_exit_status (fuel : Nat) (a : Args) (sh : Shell)
    (r : Nat × Args × Shell) (h : processString fuel a sh = .ok r) :
    r.2.2.last_exit_status = sh.last_exit_status := by
  obtain ⟨t, out, err, e⟩ := processString_frame fuel a sh r h
  rw [e]

/-- The classifier never changes the record of the strings it was handed. -/
theorem processString_classified (fuel : Nat) (a : Args) (sh : Shell)
    (r : Nat × Args × Shell) (h : processString fuel a sh = .ok r) :
    r.2.2.classified = sh.classified := by
  obtain ⟨t, out, err, e⟩ := processString_frame fuel a sh r h
  rw [e]

/-- C16: with the wait status of the child as an input, `execArgs` in the
foreground sets the last exit status to the exit code of a child that exited
(and `get ?` then prints that code: `2` for the code 2); `execArgs` in the
background, with a child ended by a signal or with a failed `fork`,
`execArgsPiped`, `changeDirectory`, `setEnvVar`, `getEnvVar` and the whole
classifier leave the last exit status as it was. -/
theorem C16_last_exit_status_frame :
    (∀ (code : Nat) (p : List CStr) (sh : Shell),
      (execArgs true (.exited code) p false sh).last_exit_status = code) ∧
    (∀ (code : Nat) (p rest : List CStr) (p0 : CStr) (sh : Shell),
      getEnvVar (p0 :: "?".toList :: rest) (execArgs true (.exited code) p false sh) =
        .ok { execArgs true (.exited code) p false sh with
              stdout := sh.stdout ++ printInt code ++ "\n".toList }) ∧
    printInt 2 = "2".toList ∧
    (∀ (f : Bool) (st : WStatus) (p : List CStr) (sh : Shell),
      (execArgs f st p true sh).last_exit_status = sh.last_exit_status) ∧
    (∀ (p : List CStr) (b : Bool) (sh : Shell),
      (execArgs true .signaled p b sh).last_exit_status = sh.last_exit_status) ∧
    (∀ (st : WStatus) (p : List CStr) (b : Bool) (sh : Shell),
      (execArgs false st p b sh).last_exit_status = sh.last_exit_status) ∧
    (∀ (pipeOk forkOk fork2Ok : Bool) (p pp : List CStr) (sh : Shell),
      (execArgsPiped pipeOk forkOk fork2Ok p pp sh).last_exit_status = sh.last_exit_status) ∧
    (∀ (e : Option CStr) (p : List CStr) (sh : Shell),
      (changeDirectory e p sh).last_exit_status = sh.last_exit_status) ∧
    (∀ (p : List CStr) (sh : Shell) (r : List CStr × Shell),
      setEnvVar p sh = .ok r → r.2.last_exit_status = sh.last_exit_status) ∧
    (∀ (p : List CStr) (sh sh1 : Shell),
      getEnvVar p sh = .ok sh1 → sh1.last_exit_status = sh.last_exit_status) ∧
    (∀ (fuel : Nat) (a : Args) (sh : Shell) (r : Nat × Args × Shell),
      processString fuel a sh = .ok r → r.2.2.last_exit_status = sh.last_exit_status) := by
  refine ⟨fun _ _ _ => rfl, ?_, by decide, ?_, ?_, ?_, ?_, ?_, setEnvVar_last_exit_status,
    getEnvVar_last_exit_status, processString_last_exit_status⟩
  · intro code p rest p0 sh
    rw [getEnvVar_status]
    rfl
  · intro f st p sh
    unfold execArgs
    cases f <;> rfl
  · intro p b sh
    unfold execArgs
    cases b <;> rfl
  · intro st p b sh
    rfl
  · intro a b c p pp sh
    unfold execArgsPiped
    cases a <;> cases b <;> cases c <;> rfl
  · intro e p sh
    unfold changeDirectory
    split
    · rfl
    · split <;> rfl

/-! ## The pipe ends in `execArgsPiped` -/

/-- C19, evaluated on the code: after the pipe was created, the parent closes
neither end of it when the first `fork` fails, and closes neither end when the
second `fork` fails: it prints and returns at once. Only when both succeed
does it close the read end and the write end and then wait twice. -/
theorem C19_fork_failure_leaves_the_pipe_open :
    (∀ (fork2Ok : Bool) (p pp : List CStr) (sh : Shell),
      (execArgsPiped true false fork2Ok p pp sh).sys = sh.sys ++ [.pipe true, .fork false]) ∧
    (∀ (p pp : List CStr) (sh : Shell),
      (execArgsPiped true true false p pp sh).sys =
        sh.sys ++ [.pipe true, .fork true, .fork false]) ∧
    (∀ (p pp : List CStr) (sh : Shell),
      (execArgsPiped true true true p pp sh).sys =
        sh.sys ++ [.pipe true, .fork true, .fork true, .closeRead, .closeWrite, .wait, .wait]) ∧
    Sys.closeRead ∉ (execArgsPiped true false true ["ls".toList] ["wc".toList] initialShell).sys ∧
    Sys.closeWrite ∉ (execArgsPiped true false true ["ls".toList] ["wc".toList] initialShell).sys ∧
    Sys.closeRead ∉ (execArgsPiped true true false ["ls".toList] ["wc".toList] initialShell).sys ∧
    Sys.closeWrite ∉ (execArgsPiped true true false ["ls".toList] ["wc".toList] initialShell).sys := by
  refine ⟨?_, fun _ _ _ => rfl, fun _ _ _ => rfl, by decide, by decide, by decide, by decide⟩
  intro f p pp sh
  rfl

/-! ## The sequencer -/

theorem cutAtCommas_ne_nil (line : CStr) : cutAtCommas line ≠ [] := by
  cases line with
  | nil => simp [cutAtCommas]
  | cons c line =>
    unfold cutAtCommas
    split
    · simp
    · split <;> simp

/-- The first `strsep` call returns the first piece of the cut line and leaves
the text behind the first comma, or NULL when there is no comma. -/
theorem cutAtCommas_strsep (line : CStr) :
    cutAtCommas line =
      (strsep line).1 ::
        (match (strsep line).2 with
         | none => []
         | some rest => cutAtCommas rest) := by
  induction line with
  | nil => rfl
  | cons c line ih =>
    by_cases hc : c = ','
    · subst hc
      simp [cutAtCommas, strsep, splitAtFirst]
    · rw [cutAtCommas, if_neg hc, ih]
      cases hs : splitAtFirst ',' line with
      | none => simp [strsep, splitAtFirst, hc, hs]
      | some q => simp [strsep, splitAtFirst, hc, hs]

/-- With enough iterations allowed, the loop of `execCommandSeq` is the loop
body run on the pieces of the cut line, in order. -/
theorem execCommandSeqLoop_eq_runCommands (w : World) (fuel : Nat) (n : Nat) :
    ∀ (line : CStr) (a : Args) (sh : Shell), (cutAtCommas line).length < n →
      execCommandSeqLoop w fuel n (some line) a sh =
        runCommands w fuel (cutAtCommas line) a sh := by
  induction n with
  | zero => intro line a sh h; exact absurd h (Nat.not_lt_zero _)
  | succ n ih =>
    intro line a sh h
    have hcut := cutAtCommas_strsep line
    rw [hcut] at h ⊢
    rw [execCommandSeqLoop, runCommands]
    congr 1
    funext st
    cases hr : (strsep line).2 with
    | none =>
      rw [hr] at h
      simp only [List.length_cons, List.length_nil] at h
      obtain ⟨m, rfl⟩ : ∃ m, n = m + 1 := ⟨n - 1, by omega⟩
      rfl
    | some rest =>
      rw [hr] at h
      simp only [List.length_cons] at h
      exact ih rest st.1 st.2 (by omega)

theorem cutAtCommas_length (line : CStr) :
    (cutAtCommas line).length = line.count ',' + 1 := by
  induction line with
  | nil => rfl
  | cons c line ih =>
    by_cases hc : c = ','
    · subst hc
      simp [cutAtCommas, ih]
    · rw [cutAtCommas, if_neg hc]
      have hcount : (c :: line).count ',' = line.count ',' := by
        rw [List.count_cons]
        simp [hc]
      rw [hcount, ← ih]
      cases hcut : cutAtCommas line with
      | nil => exact absurd hcut (cutAtCommas_ne_nil line)
      | cons x xs => rfl

theorem cutAtCommas_no_comma (line : CStr) : ∀ command ∈ cutAtCommas line, ',' ∉ command := by
  induction line with
  | nil => simp [cutAtCommas]
  | cons c line ih =>
    by_cases hc : c = ','
    · subst hc
      intro command hm
      simp only [cutAtCommas, if_true, List.mem_cons] at hm
      rcases hm with h | h
      · subst h; simp
      · exact ih command h
    · intro command hm
      rw [cutAtCommas, if_neg hc] at hm
      cases hcut : cutAtCommas line with
      | nil => exact absurd hcut (cutAtCommas_ne_nil line)
      | cons x xs =>
        rw [hcut] at hm ih
        simp only [List.mem_cons] at hm
        rcases hm with h | h
        · subst h
          intro hmem
          rcases List.mem_cons.mp hmem with h2 | h2
          · exact hc h2.symm
          · exact ih x (List.mem_cons_self _ _) h2
        · exact ih command (List.mem_cons_of_mem _ h)

theorem cutAtCommas_intercalate (line : CStr) :
    [','].intercalate (cutAtCommas line) = line := by
  induction line with
  | nil => rfl
  | cons c line ih =>
    by_cases hc : c = ','
    · subst hc
      rw [cutAtCommas, if_pos rfl]
      cases hcut : cutAtCommas line with
      | nil => exact absurd hcut (cutAtCommas_ne_nil line)
      | cons x xs =>
        rw [hcut] at ih
        simp only [List.intercalate, List.intersperse, List.flatten] at ih ⊢
        simp [ih]
    · rw [cutAtCommas, if_neg hc]
      cases hcut : cutAtCommas line with
      | nil => exact absurd hcut (cutAtCommas_ne_nil line)
      | cons x xs =>
        rw [hcut] at ih
        cases xs with
        | nil =>
          simp only [List.intercalate, List.intersperse, List.flatten] at ih ⊢
          simp at ih ⊢
          exact ih
        | cons y ys =>
          simp only [List.intercalate, List.intersperse, List.flatten] at ih ⊢
          simp at ih ⊢
          exact ih

/-- Cutting at every comma is splitting the list on the comma. -/
theorem cutAtCommas_eq_splitOn (line : CStr) : cutAtCommas line = line.splitOn ',' := by
  have h := List.splitOn_intercalate (cutAtCommas line) ',' (cutAtCommas_no_comma line)
    (cutAtCommas_ne_nil line)
  rw [cutAtCommas_intercalate] at h
  exact h.symm

theorem cutAtCommas_length_le (line : CStr) : (cutAtCommas line).length ≤ line.length + 1 := by
  rw [cutAtCommas_length]
  have := List.count_le_length ',' line
  omega

theorem execArgs_classified (f : Bool) (st : WStatus) (p : List CStr) (b : Bool)
    (sh : Shell) : (execArgs f st p b sh).classified = sh.classified := by
  unfold execArgs
  cases f <;> cases b <;> cases st <;> rfl

theorem execArgsPiped_classified (pipeOk forkOk fork2Ok : Bool) (p pp : List CStr)
    (sh : Shell) : (execArgsPiped pipeOk forkOk fork2Ok p pp sh).classified = sh.classified := by
  unfold execArgsPiped
  cases pipeOk <;> cases forkOk <;> cases fork2Ok <;> rfl

theorem changeDirectory_classified (e : Option CStr) (p : List CStr) (sh : Shell) :
    (changeDirectory e p sh).classified = sh.classified := by
  unfold changeDirectory
  split
  · rfl
  · split <;> rfl

/-- One run of the loop body that returns has handed its command string, and
no other, to the classifier. -/
theorem execCommand_classified (w : World) (fuel : Nat) (command : CStr) (a : Args)
    (sh : Shell) (st : Args × Shell) (h : execCommand w fuel command a sh = .ok st) :
    st.2.classified = sh.classified ++ [command] := by
  unfold execCommand at h
  obtain ⟨res, hres, h⟩ := andThen_ok _ _ _ h
  have hc := processString_classified _ _ _ _ hres
  dsimp only at h hc
  by_cases hcap : MAXLIST ≤ res.2.1.parsed.length ∨ MAXLIST ≤ res.2.1.parsedpipe.length
  · rw [if_pos hcap] at h
    exact Run.noConfusion h
  · rw [if_neg hcap] at h
    by_cases h1 : res.1 = 1
    · rw [if_pos h1] at h
      split at h
      · exact Run.noConfusion h
      · split at h
        · injection h with h
          subst h
          rw [changeDirectory_classified]
          exact hc
        · injection h with h
          subst h
          rw [execArgs_classified]
          exact hc
    · rw [if_neg h1] at h
      by_cases h2 : res.1 = 2
      · rw [if_pos h2] at h
        obtain ⟨parsed, _, h⟩ := andThen_ok _ _ _ h
        injection h with h
        subst h
        rw [execArgsPiped_classified]
        exact hc
      · rw [if_neg h2] at h
        injection h with h
        subst h
        exact hc

/-- A run of the loop of `execCommandSeq` that returns has handed to the
classifier every piece of the cut line, in order, and nothing else. -/
theorem execCommandSeqLoop_classified (w : World) (fuel : Nat) (n : Nat) :
    ∀ (line : CStr) (a : Args) (sh sh1 : Shell),
      execCommandSeqLoop w fuel n (some line) a sh = .ok sh1 →
      sh1.classified = sh.classified ++ cutAtCommas line := by
  induction n with
  | zero => intro line a sh sh1 h; exact Run.noConfusion h
  | succ n ih =>
    intro line a sh sh1 h
    rw [execCommandSeqLoop] at h
    obtain ⟨st, hst, h⟩ := andThen_ok _ _ _ h
    have hc := execCommand_classified _ _ _ _ _ _ hst
    rw [cutAtCommas_strsep line]
    cases hr : (strsep line).2 with
    | none =>
      rw [hr] at h
      cases n with
      | zero => exact Run.noConfusion h
      | succ m =>
        rw [execCommandSeqLoop] at h
        injection h with h
        subst h
        exact hc
    | some rest =>
      rw [hr] at h
      rw [ih rest st.1 st.2 sh1 h, hc]
      simp

/-- C17, evaluated on the code: on the line `a, ,b`, cut at its two commas
into `a`, one space and `b`, the sequencer hands `a` and then the space to the
classifier, which reads the NULL `parsed[0]` on the space, in every world and
array state (the defect of the blank command): the third string `b` is never
handed over, there are two classifier calls and not three. The rest of the
claim holds on the code: on `a,,b` the three strings `a`, the empty string and
`b` are handed over; every run of `execCommandSeq` that returns has handed to
the classifier exactly the strings of the line cut at every comma, in order;
with fuel above the length of the line the loop is its body run on these
strings one after the other; a line with n commas is cut into n + 1 strings,
none of them contains a comma and joining them with commas gives the line. -/
theorem C17_blank_piece_stops_the_sequence :
    cutAtCommas "a, ,b".toList = ["a".toList, " ".toList, "b".toList] ∧
    (∀ (w : World), execCommandSeq w 8 "a, ,b".toList initialShell = .fault .nullDeref) ∧
    (∀ (w : World), ∃ st, execCommand w 8 "a".toList ⟨[], [], [], false⟩ initialShell = .ok st ∧
      st.2.classified = ["a".toList]) ∧
    (∀ (w : World) (fuel : Nat) (a : Args) (sh : Shell),
      execCommand w (fuel + 1) " ".toList a sh = .fault .nullDeref) ∧
    (∀ (w : World), ∃ sh1, execCommandSeq w 8 "a,,b".toList initialShell = .ok sh1 ∧
      sh1.classified = ["a".toList, [], "b".toList] ∧
      sh1.calls = [.execArgs ["a".toList] false, .execArgs ["b".toList] false]) ∧
    (∀ (w : World) (fuel : Nat) (line : CStr) (sh sh1 : Shell),
      execCommandSeq w fuel line sh = .ok sh1 →
      sh1.classified = sh.classified ++ cutAtCommas line ∧
      sh1.classified.length = sh.classified.length + line.count ',' + 1) ∧
    (∀ (w : World) (k : Nat) (line : CStr) (sh : Shell),
      execCommandSeq w (line.length + 2 + k) line sh =
        runCommands w (line.length + 2 + k) (cutAtCommas line) ⟨[], [], [], false⟩ sh) ∧
    (∀ (line : CStr),
      cutAtCommas line = line.splitOn ',' ∧
      (cutAtCommas line).length = line.count ',' + 1 ∧
      (∀ command ∈ cutAtCommas line, ',' ∉ command) ∧
      [','].intercalate (cutAtCommas line) = line) := by
  refine ⟨by decide, fun w => rfl, ?_, ?_, ?_, ?_, ?_, ?_⟩
  · intro w
    have h : ∃ st, execCommand w 8 "a".toList ⟨[], [], [], false⟩ initialShell = .ok st :=
      ⟨_, rfl⟩
    obtain ⟨st, hst⟩ := h
    exact ⟨st, hst, execCommand_classified _ _ _ _ _ _ hst⟩
  · intro w fuel a sh
    have h := processString_blank fuel 0 a.parsed a.parsedpipe a.background
      { sh with classified := sh.classified ++ [" ".toList] }
    unfold execCommand
    have e : ({ a with str := " ".toList } : Args) =
        ⟨List.replicate (0 + 1) ' ', a.parsed, a.parsedpipe, a.background⟩ := rfl
    rw [e, h]
    rfl
  · intro w
    refine ⟨_, rfl, ?_, ?_⟩
    · simp only [execArgs_classified]
      rfl
    · simp only [execArgs_calls]
      rfl
  · intro w fuel line sh sh1 h
    have hc := execCommandSeqLoop_classified w fuel fuel line _ sh sh1 h
    refine ⟨hc, ?_⟩
    rw [hc, List.length_append, cutAtCommas_length]
    omega
  · intro w k line sh
    have h := cutAtCommas_length_le line
    exact execCommandSeqLoop_eq_runCommands w _ _ line _ sh (by omega)
  · intro line
    exact ⟨cutAtCommas_eq_splitOn line, cutAtCommas_length line, cutAtCommas_no_comma line,
      cutAtCommas_intercalate line⟩

/-! ## The tokenizer on space-separated input -/

theorem nonSpaceRuns_nil : nonSpaceRuns [] = [] := rfl

theorem nonSpaceRuns_cons_space (s : CStr) : nonSpaceRuns (' ' :: s) = nonSpaceRuns s := by
  simp [nonSpaceRuns, List.splitOn, List.splitOnP_cons]

theorem nonSpaceRuns_skipSpaces (s : CStr) : nonSpaceRuns (skipSpaces s) = nonSpaceRuns s := by
  induction s with
  | nil => rfl
  | cons c s ih =>
    by_cases hc : c = ' '
    · subst hc
      simp only [skipSpaces, if_true, ih, nonSpaceRuns_cons_space]
    · simp only [skipSpaces, hc, if_false]

/-- A non-empty word without space is its own single run. -/
theorem nonSpaceRuns_word (w : CStr) (hw : ∀ c ∈ w, c ≠ ' ') (hne : w ≠ []) :
    nonSpaceRuns w = [w] := by
  have h : w.splitOn ' ' = [w] := by
    apply List.splitOnP_eq_single
    intro x hx
    simpa using hw x hx
  obtain ⟨c, w1, rfl⟩ := List.exists_cons_of_ne_nil hne
  simp [nonSpaceRuns, h]

/-- A non-empty word without space followed by a space is the first run. -/
theorem nonSpaceRuns_word_space (w r : CStr) (hw : ∀ c ∈ w, c ≠ ' ') (hne : w ≠ []) :
    nonSpaceRuns (w ++ ' ' :: r) = w :: nonSpaceRuns r := by
  have h : (w ++ ' ' :: r).splitOn ' ' = w :: r.splitOn ' ' := by
    apply List.splitOnP_first
    · intro x hx
      simpa using hw x hx
    · simp
  obtain ⟨c, w1, rfl⟩ := List.exists_cons_of_ne_nil hne
  simp only [nonSpaceRuns, h]
  simp

theorem skipSpaces_head (s : CStr) : (skipSpaces s).head? ≠ some ' ' := by
  induction s with
  | nil => simp [skipSpaces]
  | cons c s ih =>
    by_cases hc : c = ' '
    · simp only [skipSpaces, hc, if_true]
      exact ih
    · simp only [skipSpaces, hc, if_false, List.head?_cons]
      intro e
      exact hc (Option.some.inj e)

theorem skipSpaces_length_le (s : CStr) : (skipSpaces s).length ≤ s.length := by
  induction s with
  | nil => simp [skipSpaces]
  | cons c s ih =>
    by_cases hc : c = ' '
    · simp only [skipSpaces, hc, if_true, List.length_cons]
      omega
    · simp only [skipSpaces, hc, if_false]
      exact Nat.le_refl _

theorem mem_of_mem_skipSpaces (s : CStr) (c : Char) (h : c ∈ skipSpaces s) : c ∈ s := by
  induction s with
  | nil => simp [skipSpaces] at h
  | cons d s ih =>
    by_cases hd : d = ' '
    · simp only [skipSpaces, hd, if_true] at h
      exact List.mem_cons_of_mem _ (ih h)
    · simp only [skipSpaces, hd, if_false] at h
      exact h

/-- Every string starts with a run without space that either ends the string
or is followed by a space. -/
theorem exists_leading_run (t : CStr) :
    ∃ w, (∀ c ∈ w, c ≠ ' ') ∧ (t = w ∨ ∃ r, t = w ++ ' ' :: r) := by
  induction t with
  | nil => exact ⟨[], by simp, Or.inl rfl⟩
  | cons c t ih =>
    by_cases hc : c = ' '
    · subst hc
      exact ⟨[], by simp, Or.inr ⟨t, rfl⟩⟩
    · obtain ⟨w, hw, h⟩ := ih
      refine ⟨c :: w, ?_, ?_⟩
      · intro d hd
        rcases List.mem_cons.mp hd with e | e
        · subst e; exact hc
        · exact hw d e
      · rcases h with h | ⟨r, h⟩
        · exact Or.inl (by rw [h])
        · exact Or.inr ⟨r, by rw [h]; rfl⟩

/-- Behind the skipped spaces stands nothing, or a non-empty word without space
that ends the string or is followed by a space. -/
theorem skipSpaces_cases (s : CStr) :
    skipSpaces s = [] ∨
    ∃ w, w ≠ [] ∧ (∀ c ∈ w, c ≠ ' ') ∧ (skipSpaces s = w ∨ ∃ r, skipSpaces s = w ++ ' ' :: r) := by
  by_cases hk : skipSpaces s = []
  · exact Or.inl hk
  · right
    obtain ⟨w, hw, h⟩ := exists_leading_run (skipSpaces s)
    have hhead := skipSpaces_head s
    have hne : w ≠ [] := by
      intro e
      subst e
      rcases h with h | ⟨r, h⟩
      · exact hk h
      · rw [h] at hhead
        exact hhead rfl
    exact ⟨w, hne, hw, h⟩

/-- With `in_quote` clear and more fuel than the string is long, the outer loop
of the tokenizer returns on a string without comma and double quote the
maximal runs of non-space characters. -/
theorem parseSpaceLoop_runs (fuel : Nat) :
    ∀ (s : CStr), ',' ∉ s → '"' ∉ s → s.length < fuel →
      parseSpaceLoop fuel false s = .ok (nonSpaceRuns s) := by
  induction fuel with
  | zero => intro s _ _ h; exact absurd h (Nat.not_lt_zero _)
  | succ n ih =>
    intro s hcomma hquote hlen
    have hruns := nonSpaceRuns_skipSpaces s
    rcases skipSpaces_cases s with hk | ⟨w, hne, hw, hform⟩
    · rw [hk, nonSpaceRuns_nil] at hruns
      rw [← hruns]
      cases s with
      | nil => rfl
      | cons c s => rw [parseSpaceLoop, hk]
    · have hsub : ∀ c ∈ w, c ∈ s := by
        intro c hc
        apply mem_of_mem_skipSpaces
        rcases hform with h | ⟨r, h⟩
        · rw [h]; exact hc
        · rw [h]; exact List.mem_append_left _ hc
      have hw2 : ∀ c ∈ w, c ≠ ' ' ∧ c ≠ ',' :=
        fun c hc => ⟨hw c hc, fun e => hcomma (e ▸ hsub c hc)⟩
      have hq : w.head? ≠ some '"' := fun e => hquote (hsub _ (List.mem_of_mem_head? e))
      have hwlen : 1 ≤ w.length := List.length_pos.mpr hne
      have hsk := skipSpaces_length_le s
      rcases hform with h | ⟨r, h⟩
      · rw [h] at hsk
        obtain ⟨m, rfl⟩ : ∃ m, n = m + 1 := ⟨n - 1, by omega⟩
        rw [parseSpaceLoop_word_last m s w hw2 hq hne h, ← hruns, h, nonSpaceRuns_word w hw hne]
      · rw [h, List.length_append, List.length_cons] at hsk
        have hr : ∀ c ∈ (' ' :: r), c ∈ s := by
          intro c hc
          apply mem_of_mem_skipSpaces
          rw [h]
          exact List.mem_append_right _ hc
        rw [parseSpaceLoop_word_step n s w r hw2 hq hne h,
          ih (' ' :: r) (fun hm => hcomma (hr _ hm)) (fun hm => hquote (hr _ hm))
            (by simp only [List.length_cons]; omega),
          ← hruns, h, nonSpaceRuns_word_space w r hw hne, nonSpaceRuns_cons_space]
        rfl

/-- The runs of non-space characters are not empty and hold no space, and a
string of length n has at most (n + 1) / 2 of them. -/
theorem nonSpaceRuns_props (n : Nat) :
    ∀ (s : CStr), s.length ≤ n →
      (∀ tok ∈ nonSpaceRuns s, tok ≠ [] ∧ ' ' ∉ tok) ∧
      2 * (nonSpaceRuns s).length ≤ s.length + 1 := by
  induction n with
  | zero =>
    intro s h
    have hs : s = [] := List.length_eq_zero.mp (Nat.le_zero.mp h)
    subst hs
    simp [nonSpaceRuns_nil]
  | succ n ih =>
    intro s hlen
    have hruns := nonSpaceRuns_skipSpaces s
    have hsk := skipSpaces_length_le s
    rcases skipSpaces_cases s with hk | ⟨w, hne, hw, hform⟩
    · rw [hk, nonSpaceRuns_nil] at hruns
      rw [← hruns]
      simp
    · have hwlen : 1 ≤ w.length := List.length_pos.mpr hne
      rcases hform with h | ⟨r, h⟩
      · rw [h] at hruns hsk
        rw [← hruns, nonSpaceRuns_word w hw hne]
        refine ⟨?_, by simp only [List.length_singleton]; omega⟩
        intro tok htok
        rw [List.mem_singleton] at htok
        subst htok
        exact ⟨hne, fun hm => hw _ hm rfl⟩
      · rw [h] at hruns hsk
        rw [List.length_append, List.length_cons] at hsk
        obtain ⟨ih1, ih2⟩ := ih r (by omega)
        rw [← hruns, nonSpaceRuns_word_space w r hw hne]
        refine ⟨?_, by simp only [List.length_cons]; omega⟩
        intro tok htok
        rcases List.mem_cons.mp htok with e | e
        · subst e
          exact ⟨hne, fun hm => hw _ hm rfl⟩
        · exact ih1 tok e

/-- An iteration of the outer loop that finds a character behind the skipped
spaces, in a string without comma, scans a token that is not empty and leaves
a string shorter than the one it started with. -/
theorem parseSpace_iteration_consumes (s : CStr) (hcomma : ',' ∉ s) (c : Char) (rest : CStr)
    (hs : skipSpaces s = c :: rest) :
    (scanToken ' ' false (c :: rest)).1 ≠ [] ∧
    (scanToken ' ' false (c :: rest)).2.1.length < s.length := by
  have hsk := skipSpaces_length_le s
  rcases skipSpaces_cases s with hk | ⟨w, hne, hw, hform⟩
  · rw [hk] at hs
    exact List.noConfusion hs
  · have hsub : ∀ d ∈ w, d ∈ s := by
      intro d hd
      apply mem_of_mem_skipSpaces
      rcases hform with h | ⟨r, h⟩
      · rw [h]; exact hd
      · rw [h]; exact List.mem_append_left _ hd
    have hw2 : ∀ d ∈ w, d ≠ ' ' ∧ d ≠ ',' :=
      fun d hd => ⟨hw d hd, fun e => hcomma (e ▸ hsub d hd)⟩
    have hwlen : 1 ≤ w.length := List.length_pos.mpr hne
    rcases hform with h | ⟨r, h⟩
    · rw [← hs, h, scanToken_word_end w hw2 ' ']
      rw [h] at hsk
      exact ⟨hne, by simp only [List.length_nil]; omega⟩
    · rw [← hs, h, scanToken_word w r hw2 ' ']
      rw [h, List.length_append, List.length_cons] at hsk
      exact ⟨hne, by simp only [List.length_cons]; omega⟩

theorem splitOn_append_space (s : CStr) : (s ++ [' ']).splitOn ' ' = s.splitOn ' ' ++ [[]] := by
  induction s with
  | nil => rfl
  | cons c s ih =>
    simp only [List.splitOn] at ih ⊢
    rw [List.cons_append, List.splitOnP_cons, List.splitOnP_cons, ih]
    by_cases hc : (c == ' ') = true
    · simp [hc]
    · simp only [hc, if_false]
      cases hsp : List.splitOnP (fun x => x == ' ') s with
      | nil => exact absurd hsp (List.splitOnP_ne_nil _ _)
      | cons x xs => rfl

theorem nonSpaceRuns_append_space (s : CStr) : nonSpaceRuns (s ++ [' ']) = nonSpaceRuns s := by
  simp [nonSpaceRuns, splitOn_append_space]

/-- Spaces put before or behind a string add no run. -/
theorem nonSpaceRuns_padded (a b : Nat) (s : CStr) :
    nonSpaceRuns (List.replicate a ' ' ++ s ++ List.replicate b ' ') = nonSpaceRuns s := by
  induction b with
  | zero =>
    simp only [List.replicate_zero, List.append_nil]
    induction a with
    | zero => rfl
    | succ a ih => rw [List.replicate_succ, List.cons_append, nonSpaceRuns_cons_space, ih]
  | succ b ih =>
    have e : List.replicate a ' ' ++ s ++ List.replicate (b + 1) ' ' =
        (List.replicate a ' ' ++ s ++ List.replicate b ' ') ++ [' '] := by
      rw [List.replicate_succ', List.append_assoc _ (List.replicate b ' ')]
    rw [e, nonSpaceRuns_append_space, ih]

/-- C21: for every string without comma and double quote the tokenizer
returns, with any fuel above the length of the string, exactly the maximal
runs of non-space characters in input order (the list ends where the array
holds its NULL); every iteration of the outer loop that scans a token moves on
by at least one character; no token is empty, no token holds a space, the
number of tokens is at most the length plus one, halved, and spaces put before
or behind the string add no token. -/
theorem C21_tokens_are_the_non_space_runs (fuel : Nat) (s : CStr) (hcomma : ',' ∉ s)
    (hquote : '"' ∉ s) :
    parseSpace (s.length + 1 + fuel) s = .ok (nonSpaceRuns s) ∧
    (∀ (c : Char) (rest : CStr), skipSpaces s = c :: rest →
      (scanToken ' ' false (c :: rest)).1 ≠ [] ∧
      (scanToken ' ' false (c :: rest)).2.1.length < s.length) ∧
    (∀ tok ∈ nonSpaceRuns s, tok ≠ [] ∧ ' ' ∉ tok) ∧
    (nonSpaceRuns s).length ≤ (s.length + 1) / 2 ∧
    (∀ (a b : Nat),
      parseSpace (a + s.length + b + 1 + fuel)
          (List.replicate a ' ' ++ s ++ List.replicate b ' ') = .ok (nonSpaceRuns s)) := by
  have hprops := nonSpaceRuns_props s.length s (Nat.le_refl _)
  refine ⟨parseSpaceLoop_runs _ s hcomma hquote (by omega),
    parseSpace_iteration_consumes s hcomma, hprops.1, by omega, ?_⟩
  intro a b
  have hc : ',' ∉ List.replicate a ' ' ++ s ++ List.replicate b ' ' := by
    intro hm
    rcases List.mem_append.mp hm with h | h
    · rcases List.mem_append.mp h with h | h
      · exact absurd (List.eq_of_mem_replicate h) (by decide)
      · exact hcomma h
    · exact absurd (List.eq_of_mem_replicate h) (by decide)
  have hq : '"' ∉ List.replicate a ' ' ++ s ++ List.replicate b ' ' := by
    intro hm
    rcases List.mem_append.mp hm with h | h
    · rcases List.mem_append.mp h with h | h
      · exact absurd (List.eq_of_mem_replicate h) (by decide)
      · exact hquote h
    · exact absurd (List.eq_of_mem_replicate h) (by decide)
  have h := parseSpaceLoop_runs (a + s.length + b + 1 + fuel) _ hc hq
    (by simp only [List.length_append, List.length_replicate]; omega)
  rw [nonSpaceRuns_padded] at h
  exact h

/-- C21 at the string `  ls  -l ` of nine characters. -/
theorem C21_tokens_are_the_non_space_runs_witness :
    parseSpace 10 "  ls  -l ".toList = .ok (nonSpaceRuns "  ls  -l ".toList) ∧
    nonSpaceRuns "  ls  -l ".toList = ["ls".toList, "-l".toList] :=
  ⟨(C21_tokens_are_the_non_space_runs 0 "  ls  -l ".toList (by decide) (by decide)).1,
   by decide⟩

/-! ## Insertion and the other names -/

/-- C22, the claim as stated fails: the names `abcdefghijklmnopq` (17
characters) and `abcdefghijklmnopq9` are distinct and hash to one bucket; on
the empty table the second is not found, and after
`insertIntoHashTable("abcdefghijklmnopq", "9")`, whose copy of the name runs
over the array `name` of the node into `value`, its lookup returns `9`. And
an insert with a value of 241 characters writes behind the node. -/
theorem C22_long_name_changes_another_lookup :
    "abcdefghijklmnopq".toList ≠ "abcdefghijklmnopq9".toList ∧
    hashFunction "abcdefghijklmnopq".toList = hashFunction "abcdefghijklmnopq9".toList ∧
    searchInHashTable emptyTable "abcdefghijklmnopq9".toList = none ∧
    (insertIntoHashTable emptyTable "abcdefghijklmnopq".toList "9".toList).result.map
      (fun t => searchInHashTable t "abcdefghijklmnopq9".toList) = some (some "9".toList) ∧
    insertIntoHashTable emptyTable "n".toList (List.replicate 241 'v') =
      .fault .bufferOverflow := by
  refine ⟨by decide, by decide, by decide, by decide, ?_⟩
  apply insert_long_value
  rw [List.length_replicate]
  decide

/-- C22, amended: for every table, distinct names `n` and `m` with `n` of at
most 16 characters, and value `v` of at most 240 characters (the bounds of
the node), `insertIntoHashTable(n, v)` returns and looking up `m` gives the
same result after it as before, whether or not the two names share a bucket;
and the insert leaves every chain as it was, node for node and in the same
order, but for the new node linked behind the last node of the chain of `n`. -/
theorem C22_insert_leaves_other_names_untouched (t : HashTable) (n m v : CStr) (h : n ≠ m)
    (hn : n.length < MAX_ENV_VAR_LEN) (hv : v.length < MAX_ENV_VAL_LEN) :
    ∃ t1, insertIntoHashTable t n v = .ok t1 ∧
      searchInHashTable t1 m = searchInHashTable t m ∧
      (∀ (i : Fin HASH_TABLE_SIZE),
        t1 i = if i = hashFunction n then t i ++ [⟨n, v⟩] else t i) := by
  refine ⟨_, insert_ok t n v hn hv, search_link_other t _ n m v h, ?_⟩
  intro i
  by_cases hi : i = hashFunction n
  · rw [if_pos hi, hi, link_bucket_same]
  · rw [if_neg hi, link_bucket_other t _ i _ hi]

/-- C22, amended, at the table holding `a`, with `u` inserted into the bucket
of `a`. -/
theorem C22_insert_leaves_other_names_untouched_witness :
    hashFunction "u".toList = hashFunction "a".toList ∧
    ∃ t1, insertIntoHashTable (linkNode emptyTable (hashFunction "a".toList)
          ⟨"a".toList, "1".toList⟩) "u".toList "2".toList = .ok t1 ∧
      searchInHashTable t1 "a".toList =
        searchInHashTable
          (linkNode emptyTable (hashFunction "a".toList) ⟨"a".toList, "1".toList⟩) "a".toList ∧
      (∀ (i : Fin HASH_TABLE_SIZE),
        t1 i =
          if i = hashFunction "u".toList then
            linkNode emptyTable (hashFunction "a".toList) ⟨"a".toList, "1".toList⟩ i ++
              [⟨"u".toList, "2".toList⟩]
          else linkNode emptyTable (hashFunction "a".toList) ⟨"a".toList, "1".toList⟩ i) :=
  ⟨by decide,
   C22_insert_leaves_other_names_untouched
     (linkNode emptyTable (hashFunction "a".toList) ⟨"a".toList, "1".toList⟩) "u".toList
     "a".toList "2".toList (by decide) (by decide) (by decide)⟩

/-! ## The tokenizer behind the sequencer -/

end FLASH
